import Mathlib

/-!
A shallow embedding of the event-grouping core of
`tensorflow/core/profiler/utils/group_events` and proofs of the
specification's testable properties about it.

Only the header `group_events.h` is part of the repository snapshot, so the
inline member function `EventNode::AddChild` is translated directly from the
source, while the algorithm bodies (`ConnectIntraThread`,
`ConnectInterThread`, context-group connection, `PropagateGroupId`,
`CreateEventGroup`, loop-root detection) are modelled from the
specification's algorithm descriptions, as noted on each definition.
-/

namespace GroupEvents

/-! ## Node-level parent/child edge lists

`EventNode` keeps a `parents_` and a `children_` vector of node pointers.
Nodes are addressed here by a stable natural-number id; the two edge lists
are total functions from node id to its list of neighbour ids. -/

structure NodeGraph where
  childrenOf : Nat → List Nat
  parentsOf : Nat → List Nat

def NodeGraph.empty : NodeGraph := ⟨fun _ => [], fun _ => []⟩

/-- From the source (`group_events.h`, `EventNode::AddChild`): appends
`child` to this node's `children_` vector and, in the same call, appends
this node to the child's `parents_` vector. -/
def addChild (g : NodeGraph) (self child : Nat) : NodeGraph :=
  { childrenOf := fun m => if m = self then g.childrenOf m ++ [child] else g.childrenOf m
    parentsOf := fun m => if m = child then g.parentsOf m ++ [self] else g.parentsOf m }

/-- Folding a whole call sequence of `AddChild` invocations, each given as a
`(self, child)` pair, over a graph. -/
def addChildCalls (g : NodeGraph) (calls : List (Nat × Nat)) : NodeGraph :=
  calls.foldl (fun h pc => addChild h pc.1 pc.2) g

end GroupEvents

namespace GroupEvents

theorem count_addChild_parentsOf (g : NodeGraph) (a b P C : Nat) :
    ((addChild g a b).parentsOf C).count P =
      (g.parentsOf C).count P + (if C = b ∧ P = a then 1 else 0) := by
  simp only [addChild]
  by_cases hC : C = b
  · subst hC
    simp only [if_pos rfl, List.count_append, List.count_singleton]
    by_cases hP : P = a
    · subst hP
      simp
    · simp [hP, Ne.symm hP]
  · simp [hC]

theorem count_addChild_childrenOf (g : NodeGraph) (a b P C : Nat) :
    ((addChild g a b).childrenOf P).count C =
      (g.childrenOf P).count C + (if C = b ∧ P = a then 1 else 0) := by
  simp only [addChild]
  by_cases hP : P = a
  · subst hP
    simp only [if_pos rfl, List.count_append, List.count_singleton]
    by_cases hC : C = b
    · subst hC
      simp
    · simp [hC, Ne.symm hC]
  · simp [hP]

theorem addChildCalls_count (calls : List (Nat × Nat)) (g : NodeGraph)
    (h : ∀ P C, ((g.parentsOf C).count P = (g.childrenOf P).count C)) :
    ∀ P C, (((addChildCalls g calls).parentsOf C).count P =
      ((addChildCalls g calls).childrenOf P).count C) := by
  induction calls generalizing g with
  | nil => exact h
  | cons pc rest ih =>
    intro P C
    refine ih (addChild g pc.1 pc.2) ?_ P C
    intro P' C'
    rw [count_addChild_parentsOf, count_addChild_childrenOf, h P' C']

/-- C10: `EventNode::AddChild` keeps the two edge lists mutually consistent:
after any sequence of `AddChild` calls starting from fresh nodes, a node `P`
appears in node `C`'s parents list exactly as many times as `C` appears in
`P`'s children list. -/
theorem C10_addChild_mutual_consistency (calls : List (Nat × Nat)) (P C : Nat) :
    ((addChildCalls NodeGraph.empty calls).parentsOf C).count P =
      ((addChildCalls NodeGraph.empty calls).childrenOf P).count C := by
  refine addChildCalls_count calls NodeGraph.empty ?_ P C
  intro _ _
  simp [NodeGraph.empty]

end GroupEvents

namespace GroupEvents

/-! ## Group assignment state

The grouping passes of `EventForest` are not in the header; they are
modelled from the spec (sections 4.4, 3 and 7).  The node graph used for
group propagation is the child-edge relation over node ids `0 .. n-1`;
the `GroupMetadataMap` is modelled by the per-group-id functions
`gparents`, `gchildren` (the `parents` / `children` hash sets of
`GroupMetadata`) and `gnameRoot` (the root from which the group's display
name is derived). -/

structure Graph where
  n : Nat
  children : Nat → List Nat

/-- Every child edge of a valid node points at a valid node. -/
def Graph.WF (g : Graph) : Prop :=
  ∀ m, m < g.n → ∀ c ∈ g.children m, c < g.n

structure GState where
  groupOf : Nat → Option Nat
  gparents : Nat → List Nat
  gchildren : Nat → List Nat
  gnameRoot : Nat → Option Nat

def initState : GState := ⟨fun _ => none, fun _ => [], fun _ => [], fun _ => none⟩

/-- Modelled from the spec: `EventNode::SetGroupId` on one node. -/
def GState.assign (st : GState) (n gid : Nat) : GState :=
  { st with groupOf := fun m => if m = n then some gid else st.groupOf m }

/-- Modelled from the spec (section 3, data-model invariants): when group
`gid` reaches group `ge` across a boundary, `ge` is recorded as `gid`'s
child and `gid` as `ge`'s parent, in both directions at once. -/
def GState.recordRel (st : GState) (gid ge : Nat) : GState :=
  { st with
    gchildren := fun a => if a = gid then ge :: st.gchildren a else st.gchildren a
    gparents := fun b => if b = ge then gid :: st.gparents b else st.gparents b }

/-- Modelled from the spec: creating the metadata entry of a fresh group,
whose display name derives from its root node. -/
def GState.newGroup (st : GState) (gid r : Nat) : GState :=
  { st with gnameRoot := fun a => if a = gid then some r else st.gnameRoot a }

/-- Number of still ungrouped nodes, the termination measure of the group
propagation. -/
def unassignedIn (g : Graph) (f : Nat → Option Nat) : Nat :=
  (List.range g.n).countP (fun i => (f i).isNone)

theorem countP_le_countP_of_imp (l : List Nat) (p q : Nat → Bool)
    (himp : ∀ i, q i = true → p i = true) : l.countP q ≤ l.countP p := by
  induction l with
  | nil => simp [List.countP_nil]
  | cons a t ih =>
    rw [List.countP_cons, List.countP_cons]
    by_cases hqa : q a = true
    · rw [hqa, himp a hqa]
      omega
    · rw [Bool.not_eq_true] at hqa
      rw [hqa]
      by_cases hpa : p a = true <;> simp [hpa] <;> omega

theorem countP_lt_countP_of_mem (l : List Nat) (p q : Nat → Bool) (n : Nat)
    (hmem : n ∈ l) (himp : ∀ i, q i = true → p i = true)
    (hp : p n = true) (hq : q n = false) : l.countP q < l.countP p := by
  induction l with
  | nil => cases hmem
  | cons a t ih =>
    rw [List.countP_cons, List.countP_cons]
    rcases List.mem_cons.mp hmem with h | h
    · subst h
      rw [hp, hq]
      have := countP_le_countP_of_imp t p q himp
      simp
      omega
    · have := ih h
      by_cases hqa : q a = true
      · rw [hqa, himp a hqa]
        omega
      · rw [Bool.not_eq_true] at hqa
        rw [hqa]
        by_cases hpa : p a = true <;> simp [hpa] <;> omega

theorem unassignedIn_assign_lt (g : Graph) (st : GState) (n gid : Nat)
    (hn : n < g.n) (hnone : st.groupOf n = none) :
    unassignedIn g (st.assign n gid).groupOf < unassignedIn g st.groupOf := by
  refine countP_lt_countP_of_mem (List.range g.n) _ _ n (List.mem_range.mpr hn) ?_ ?_ ?_
  · intro i hqi
    by_cases hin : i = n
    · subst hin
      simp [GState.assign] at hqi
    · simpa [GState.assign, hin] using hqi
  · simp [hnone]
  · simp [GState.assign]

/-- Modelled from the spec (section 4.4): `EventNode::PropagateGroupId`.
Worklist traversal of the child DAG from the seed nodes; a node without a
group id gets `gid` and its children are enqueued; a node that already has
a different group id keeps it and a bidirectional group relationship is
recorded instead; an already identically grouped node is skipped. -/
def propagateGroupId (g : Graph) (gid : Nat) : GState → List Nat → GState
  | st, [] => st
  | st, n :: todo =>
    if hn : n < g.n then
      match hm : st.groupOf n with
      | none => propagateGroupId g gid (st.assign n gid) (g.children n ++ todo)
      | some ge =>
        if ge = gid then propagateGroupId g gid st todo
        else propagateGroupId g gid (st.recordRel gid ge) todo
    else propagateGroupId g gid st todo
termination_by st todo => (unassignedIn g st.groupOf, todo.length)
decreasing_by
  · exact Prod.Lex.left _ _ (unassignedIn_assign_lt g st n gid hn hm)
  · exact Prod.Lex.right _ (Nat.lt_succ_self _)
  · exact Prod.Lex.right _ (Nat.lt_succ_self _)
  · exact Prod.Lex.right _ (Nat.lt_succ_self _)


/-- Root order used by the assembler: nondecreasing start time. -/
def rootLE (starts : Nat → Nat) (a b : Nat) : Prop := starts a ≤ starts b

instance (starts : Nat → Nat) : DecidableRel (rootLE starts) :=
  fun a b => inferInstanceAs (Decidable (starts a ≤ starts b))

instance (starts : Nat → Nat) : IsTotal Nat (rootLE starts) :=
  ⟨fun a b => Nat.le_total (starts a) (starts b)⟩

instance (starts : Nat → Nat) : IsTrans Nat (rootLE starts) :=
  ⟨fun _ _ _ h1 h2 => Nat.le_trans h1 h2⟩

/-- Modelled from the spec (section 4.4): the assembler loop of
`EventForest::CreateEventGroup`.  Walks the start-time sorted candidate
roots; a root that already carries a group id is skipped, otherwise the
next id of the monotonic counter is allocated, the group's metadata entry
is created and the id is propagated from the root.  Besides the final
state and counter it returns the allocation log: one `(root, group id)`
pair per root that was still unassigned when processed. -/
def allocGo (g : Graph) : List Nat → GState → Nat → GState × Nat × List (Nat × Nat)
  | [], st, c => (st, c, [])
  | r :: rs, st, c =>
    match st.groupOf r with
    | none =>
      let st2 := propagateGroupId g c (st.newGroup c r) [r]
      let res := allocGo g rs st2 (c + 1)
      (res.1, res.2.1, (r, c) :: res.2.2)
    | some _ => allocGo g rs st c

/-- Modelled from the spec (section 4.4): loop-iteration roots supersede
the whole legacy root set whenever any were detected. -/
def usedRoots (loopRoots legacyRoots : List Nat) : List Nat :=
  if loopRoots.isEmpty then legacyRoots else loopRoots

/-- Modelled from the spec (section 4.4): `EventForest::CreateEventGroup`.
Selects the root set (loop-iteration roots override legacy roots), sorts
it by start time, and assigns incrementing group ids starting at 0. -/
def createEventGroup (g : Graph) (starts : Nat → Nat)
    (loopRoots legacyRoots : List Nat) : GState × Nat × List (Nat × Nat) :=
  allocGo g (List.insertionSort (rootLE starts) (usedRoots loopRoots legacyRoots))
    initState 0

/-- One parent-to-child edge step in the node graph. -/
def ChildStep (g : Graph) (a b : Nat) : Prop := b ∈ g.children a

/-- Reachability along child edges (the transitive closure used by the
coverage property). -/
def Reach (g : Graph) : Nat → Nat → Prop := Relation.ReflTransGen (ChildStep g)


theorem propagateGroupId_nil (g : Graph) (gid : Nat) (st : GState) :
    propagateGroupId g gid st [] = st := by
  rw [propagateGroupId.eq_def]

theorem propagateGroupId_cons_none (g : Graph) (gid : Nat) (st : GState)
    (n : Nat) (todo : List Nat) (hn : n < g.n) (hm : st.groupOf n = none) :
    propagateGroupId g gid st (n :: todo) =
      propagateGroupId g gid (st.assign n gid) (g.children n ++ todo) := by
  rw [propagateGroupId.eq_def]
  simp only [dif_pos hn]
  split
  · rfl
  · rename_i ge heq
    rw [hm] at heq
    cases heq

theorem propagateGroupId_cons_same (g : Graph) (gid : Nat) (st : GState)
    (n : Nat) (todo : List Nat) (hn : n < g.n) (hm : st.groupOf n = some gid) :
    propagateGroupId g gid st (n :: todo) = propagateGroupId g gid st todo := by
  rw [propagateGroupId.eq_def]
  simp only [dif_pos hn]
  split
  · rename_i heq
    rw [hm] at heq
    cases heq
  · rename_i ge heq
    rw [hm] at heq
    injection heq with h
    subst h
    rw [if_pos rfl]

theorem propagateGroupId_cons_other (g : Graph) (gid : Nat) (st : GState)
    (n : Nat) (todo : List Nat) (ge : Nat) (hn : n < g.n)
    (hm : st.groupOf n = some ge) (hne : ge ≠ gid) :
    propagateGroupId g gid st (n :: todo) =
      propagateGroupId g gid (st.recordRel gid ge) todo := by
  rw [propagateGroupId.eq_def]
  simp only [dif_pos hn]
  split
  · rename_i heq
    rw [hm] at heq
    cases heq
  · rename_i ge' heq
    rw [hm] at heq
    injection heq with h
    subst h
    rw [if_neg hne]

theorem propagateGroupId_cons_oob (g : Graph) (gid : Nat) (st : GState)
    (n : Nat) (todo : List Nat) (hn : ¬ n < g.n) :
    propagateGroupId g gid st (n :: todo) = propagateGroupId g gid st todo := by
  rw [propagateGroupId.eq_def]
  simp only [dif_neg hn]

/-- An already assigned group id survives any later propagation pass
untouched. -/
theorem propagateGroupId_keeps (g : Graph) (gid : Nat) (st : GState)
    (todo : List Nat) :
    ∀ m x, st.groupOf m = some x →
      (propagateGroupId g gid st todo).groupOf m = some x := by
  induction st, todo using propagateGroupId.induct g gid with
  | case1 st =>
    intro m x h
    rw [propagateGroupId_nil]
    exact h
  | case2 st n todo hn hm ih =>
    intro m x h
    rw [propagateGroupId_cons_none g gid st n todo hn hm]
    refine ih m x ?_
    simp only [GState.assign]
    by_cases hmn : m = n
    · subst hmn
      rw [hm] at h
      cases h
    · simp [hmn, h]
  | case3 st n todo hn hm ih =>
    intro m x h
    rw [propagateGroupId_cons_same g gid st n todo hn hm]
    exact ih m x h
  | case4 st n todo hn ge hm hne ih =>
    intro m x h
    rw [propagateGroupId_cons_other g gid st n todo ge hn hm hne]
    exact ih m x h
  | case5 st n todo hn ih =>
    intro m x h
    rw [propagateGroupId_cons_oob g gid st n todo hn]
    exact ih m x h

theorem propagateGroupId_isSome_mono (g : Graph) (gid : Nat) (st : GState)
    (todo : List Nat) (m : Nat) (h : (st.groupOf m).isSome) :
    ((propagateGroupId g gid st todo).groupOf m).isSome := by
  rcases Option.isSome_iff_exists.mp h with ⟨x, hx⟩
  rw [propagateGroupId_keeps g gid st todo m x hx]
  rfl

theorem propagateGroupId_gchildren_mono (g : Graph) (gid : Nat) (st : GState)
    (todo : List Nat) :
    ∀ a b, b ∈ st.gchildren a →
      b ∈ (propagateGroupId g gid st todo).gchildren a := by
  induction st, todo using propagateGroupId.induct g gid with
  | case1 st =>
    intro a b h
    rw [propagateGroupId_nil]
    exact h
  | case2 st n todo hn hm ih =>
    intro a b h
    rw [propagateGroupId_cons_none g gid st n todo hn hm]
    exact ih a b h
  | case3 st n todo hn hm ih =>
    intro a b h
    rw [propagateGroupId_cons_same g gid st n todo hn hm]
    exact ih a b h
  | case4 st n todo hn ge hm hne ih =>
    intro a b h
    rw [propagateGroupId_cons_other g gid st n todo ge hn hm hne]
    refine ih a b ?_
    simp only [GState.recordRel]
    by_cases hag : a = gid
    · subst hag
      simp only [if_pos rfl]
      exact List.mem_cons_of_mem _ h
    · simpa [hag] using h
  | case5 st n todo hn ih =>
    intro a b h
    rw [propagateGroupId_cons_oob g gid st n todo hn]
    exact ih a b h

theorem propagateGroupId_gparents_mono (g : Graph) (gid : Nat) (st : GState)
    (todo : List Nat) :
    ∀ a b, b ∈ st.gparents a →
      b ∈ (propagateGroupId g gid st todo).gparents a := by
  induction st, todo using propagateGroupId.induct g gid with
  | case1 st =>
    intro a b h
    rw [propagateGroupId_nil]
    exact h
  | case2 st n todo hn hm ih =>
    intro a b h
    rw [propagateGroupId_cons_none g gid st n todo hn hm]
    exact ih a b h
  | case3 st n todo hn hm ih =>
    intro a b h
    rw [propagateGroupId_cons_same g gid st n todo hn hm]
    exact ih a b h
  | case4 st n todo hn ge hm hne ih =>
    intro a b h
    rw [propagateGroupId_cons_other g gid st n todo ge hn hm hne]
    refine ih a b ?_
    simp only [GState.recordRel]
    by_cases hag : a = ge
    · subst hag
      simp only [if_pos rfl]
      exact List.mem_cons_of_mem _ h
    · simpa [hag] using h
  | case5 st n todo hn ih =>
    intro a b h
    rw [propagateGroupId_cons_oob g gid st n todo hn]
    exact ih a b h


/-- Every worklist node that already carries a different group id causes
the bidirectional group relationship to be recorded. -/
theorem propagateGroupId_records (g : Graph) (gid : Nat) (st : GState)
    (todo : List Nat) :
    ∀ n ge, n ∈ todo → n < g.n → st.groupOf n = some ge → ge ≠ gid →
      ge ∈ (propagateGroupId g gid st todo).gchildren gid ∧
      gid ∈ (propagateGroupId g gid st todo).gparents ge := by
  induction st, todo using propagateGroupId.induct g gid with
  | case1 st =>
    intro n ge hmem
    cases hmem
  | case2 st m todo hn hm ih =>
    intro n ge hmem hlt hsome hne
    rw [propagateGroupId_cons_none g gid st m todo hn hm]
    rcases List.mem_cons.mp hmem with h | h
    · subst h
      rw [hm] at hsome
      cases hsome
    · refine ih n ge (List.mem_append_right _ h) hlt ?_ hne
      simp only [GState.assign]
      by_cases hnm : n = m
      · subst hnm
        rw [hm] at hsome
        cases hsome
      · simp [hnm, hsome]
  | case3 st m todo hn hm ih =>
    intro n ge hmem hlt hsome hne
    rw [propagateGroupId_cons_same g gid st m todo hn hm]
    rcases List.mem_cons.mp hmem with h | h
    · subst h
      rw [hm] at hsome
      injection hsome with h2
      exact absurd h2.symm hne
    · exact ih n ge h hlt hsome hne
  | case4 st m todo hn ge' hm hne' ih =>
    intro n ge hmem hlt hsome hne
    rw [propagateGroupId_cons_other g gid st m todo ge' hn hm hne']
    rcases List.mem_cons.mp hmem with h | h
    · subst h
      rw [hm] at hsome
      injection hsome with h2
      subst h2
      constructor
      · refine propagateGroupId_gchildren_mono g gid _ todo gid ge' ?_
        simp [GState.recordRel]
      · refine propagateGroupId_gparents_mono g gid _ todo ge' gid ?_
        simp [GState.recordRel]
    · exact ih n ge h hlt hsome hne
  | case5 st m todo hn ih =>
    intro n ge hmem hlt hsome hne
    rw [propagateGroupId_cons_oob g gid st m todo hn]
    rcases List.mem_cons.mp hmem with h | h
    · subst h
      exact absurd hlt hn
    · exact ih n ge h hlt hsome hne

/-- Every valid worklist node ends the propagation with a group id. -/
theorem propagateGroupId_todo_isSome (g : Graph) (gid : Nat) (st : GState)
    (todo : List Nat) :
    ∀ n, n ∈ todo → n < g.n →
      ((propagateGroupId g gid st todo).groupOf n).isSome := by
  induction st, todo using propagateGroupId.induct g gid with
  | case1 st =>
    intro n hmem
    cases hmem
  | case2 st m todo hn hm ih =>
    intro n hmem hlt
    rw [propagateGroupId_cons_none g gid st m todo hn hm]
    rcases List.mem_cons.mp hmem with h | h
    · subst h
      refine propagateGroupId_isSome_mono g gid _ _ n ?_
      simp [GState.assign]
    · exact ih n (List.mem_append_right _ h) hlt
  | case3 st m todo hn hm ih =>
    intro n hmem hlt
    rw [propagateGroupId_cons_same g gid st m todo hn hm]
    rcases List.mem_cons.mp hmem with h | h
    · subst h
      refine propagateGroupId_isSome_mono g gid _ _ n ?_
      simp [hm]
    · exact ih n h hlt
  | case4 st m todo hn ge hm hne ih =>
    intro n hmem hlt
    rw [propagateGroupId_cons_other g gid st m todo ge hn hm hne]
    rcases List.mem_cons.mp hmem with h | h
    · subst h
      refine propagateGroupId_isSome_mono g gid _ _ n ?_
      simp [GState.recordRel, hm]
    · exact ih n h hlt
  | case5 st m todo hn ih =>
    intro n hmem hlt
    rw [propagateGroupId_cons_oob g gid st m todo hn]
    rcases List.mem_cons.mp hmem with h | h
    · subst h
      exact absurd hlt hn
    · exact ih n h hlt

/-- The grouped-node set is closed under child edges once a propagation
pass has completed (every pending obligation sits on the worklist). -/
theorem propagateGroupId_closed (g : Graph) (gid : Nat) (hWF : g.WF)
    (st : GState) (todo : List Nat) :
    (∀ m, m < g.n → (st.groupOf m).isSome →
        ∀ c ∈ g.children m, ((st.groupOf c).isSome ∨ c ∈ todo)) →
    (∀ x ∈ todo, x < g.n) →
    ∀ m, m < g.n → ((propagateGroupId g gid st todo).groupOf m).isSome →
      ∀ c ∈ g.children m,
        ((propagateGroupId g gid st todo).groupOf c).isSome := by
  induction st, todo using propagateGroupId.induct g gid with
  | case1 st =>
    intro hinv _ m hm hsome c hc
    rw [propagateGroupId_nil] at hsome ⊢
    rcases hinv m hm hsome c hc with h | h
    · exact h
    · cases h
  | case2 st n todo hn hm ih =>
    intro hinv htodo
    rw [propagateGroupId_cons_none g gid st n todo hn hm]
    refine ih ?_ ?_
    · intro m' hm' hsome' c hc
      by_cases hmn : m' = n
      · subst hmn
        exact Or.inr (List.mem_append_left _ hc)
      · have hsome0 : (st.groupOf m').isSome := by
          simpa [GState.assign, hmn] using hsome'
        rcases hinv m' hm' hsome0 c hc with h | h
        · left
          simp only [GState.assign]
          by_cases hcn : c = n
          · simp [hcn]
          · simpa [hcn] using h
        · rcases List.mem_cons.mp h with h2 | h2
          · left
            simp [GState.assign, h2]
          · exact Or.inr (List.mem_append_right _ h2)
    · intro x hx
      rcases List.mem_append.mp hx with h | h
      · exact hWF n hn x h
      · exact htodo x (List.mem_cons_of_mem _ h)
  | case3 st n todo hn hm ih =>
    intro hinv htodo
    rw [propagateGroupId_cons_same g gid st n todo hn hm]
    refine ih ?_ ?_
    · intro m' hm' hsome' c hc
      rcases hinv m' hm' hsome' c hc with h | h
      · exact Or.inl h
      · rcases List.mem_cons.mp h with h2 | h2
        · subst h2
          left
          simp [hm]
        · exact Or.inr h2
    · intro x hx
      exact htodo x (List.mem_cons_of_mem _ hx)
  | case4 st n todo hn ge hm hne ih =>
    intro hinv htodo
    rw [propagateGroupId_cons_other g gid st n todo ge hn hm hne]
    refine ih ?_ ?_
    · intro m' hm' hsome' c hc
      have hsome0 : (st.groupOf m').isSome := hsome'
      rcases hinv m' hm' hsome0 c hc with h | h
      · exact Or.inl h
      · rcases List.mem_cons.mp h with h2 | h2
        · subst h2
          left
          show (st.groupOf c).isSome
          simp [hm]
        · exact Or.inr h2
    · intro x hx
      exact htodo x (List.mem_cons_of_mem _ hx)
  | case5 st n todo hn ih =>
    intro _ htodo
    exact absurd (htodo n (List.mem_cons_self _ _)) hn

/-- Propagation only grants group ids to nodes reachable from the
worklist. -/
theorem propagateGroupId_source (g : Graph) (gid : Nat) (st : GState)
    (todo : List Nat) :
    ∀ m, ((propagateGroupId g gid st todo).groupOf m).isSome →
      (st.groupOf m).isSome ∨ ∃ x ∈ todo, Reach g x m := by
  induction st, todo using propagateGroupId.induct g gid with
  | case1 st =>
    intro m h
    rw [propagateGroupId_nil] at h
    exact Or.inl h
  | case2 st n todo hn hm ih =>
    intro m h
    rw [propagateGroupId_cons_none g gid st n todo hn hm] at h
    rcases ih m h with h2 | ⟨x, hx, hr⟩
    · by_cases hmn : m = n
      · subst hmn
        exact Or.inr ⟨m, List.mem_cons_self _ _, Relation.ReflTransGen.refl⟩
      · left
        simpa [GState.assign, hmn] using h2
    · rcases List.mem_append.mp hx with h3 | h3
      · refine Or.inr ⟨n, List.mem_cons_self _ _, ?_⟩
        exact Relation.ReflTransGen.head h3 hr
      · exact Or.inr ⟨x, List.mem_cons_of_mem _ h3, hr⟩
  | case3 st n todo hn hm ih =>
    intro m h
    rw [propagateGroupId_cons_same g gid st n todo hn hm] at h
    rcases ih m h with h2 | ⟨x, hx, hr⟩
    · exact Or.inl h2
    · exact Or.inr ⟨x, List.mem_cons_of_mem _ hx, hr⟩
  | case4 st n todo hn ge hm hne ih =>
    intro m h
    rw [propagateGroupId_cons_other g gid st n todo ge hn hm hne] at h
    rcases ih m h with h2 | ⟨x, hx, hr⟩
    · exact Or.inl h2
    · exact Or.inr ⟨x, List.mem_cons_of_mem _ hx, hr⟩
  | case5 st n todo hn ih =>
    intro m h
    rw [propagateGroupId_cons_oob g gid st n todo hn] at h
    rcases ih m h with h2 | ⟨x, hx, hr⟩
    · exact Or.inl h2
    · exact Or.inr ⟨x, List.mem_cons_of_mem _ hx, hr⟩


/-- The group relationship sets are mutually consistent: `a` is recorded
as a parent of `b` exactly when `b` is recorded as a child of `a`. -/
def SymRel (st : GState) : Prop :=
  ∀ a b, a ∈ st.gparents b ↔ b ∈ st.gchildren a

theorem symRel_recordRel (st : GState) (gid ge : Nat) (h : SymRel st) :
    SymRel (st.recordRel gid ge) := by
  intro a b
  simp only [GState.recordRel]
  by_cases hb : b = ge
  · subst hb
    by_cases ha : a = gid
    · subst ha
      simp
    · simp [ha, h a b]
  · by_cases ha : a = gid
    · subst ha
      simp [hb, h a b]
    · simp [hb, ha, h a b]

theorem propagateGroupId_symRel (g : Graph) (gid : Nat) (st : GState)
    (todo : List Nat) :
    SymRel st → SymRel (propagateGroupId g gid st todo) := by
  induction st, todo using propagateGroupId.induct g gid with
  | case1 st =>
    intro h
    rw [propagateGroupId_nil]
    exact h
  | case2 st n todo hn hm ih =>
    intro h
    rw [propagateGroupId_cons_none g gid st n todo hn hm]
    exact ih h
  | case3 st n todo hn hm ih =>
    intro h
    rw [propagateGroupId_cons_same g gid st n todo hn hm]
    exact ih h
  | case4 st n todo hn ge hm hne ih =>
    intro h
    rw [propagateGroupId_cons_other g gid st n todo ge hn hm hne]
    exact ih (symRel_recordRel st gid ge h)
  | case5 st n todo hn ih =>
    intro h
    rw [propagateGroupId_cons_oob g gid st n todo hn]
    exact ih h

theorem allocGo_nil (g : Graph) (st : GState) (c : Nat) :
    allocGo g [] st c = (st, c, []) := rfl

theorem allocGo_cons_none (g : Graph) (r : Nat) (rs : List Nat) (st : GState)
    (c : Nat) (hr : st.groupOf r = none) :
    allocGo g (r :: rs) st c =
      ((allocGo g rs (propagateGroupId g c (st.newGroup c r) [r]) (c + 1)).1,
       (allocGo g rs (propagateGroupId g c (st.newGroup c r) [r]) (c + 1)).2.1,
       (r, c) ::
         (allocGo g rs (propagateGroupId g c (st.newGroup c r) [r]) (c + 1)).2.2) := by
  simp [allocGo, hr]

theorem allocGo_cons_some (g : Graph) (r : Nat) (rs : List Nat) (st : GState)
    (c x : Nat) (hr : st.groupOf r = some x) :
    allocGo g (r :: rs) st c = allocGo g rs st c := by
  simp [allocGo, hr]

theorem allocGo_keeps (g : Graph) (rs : List Nat) (st : GState) (c : Nat) :
    ∀ m x, st.groupOf m = some x → (allocGo g rs st c).1.groupOf m = some x := by
  induction rs generalizing st c with
  | nil =>
    intro m x h
    rw [allocGo_nil]
    exact h
  | cons r rs ih =>
    intro m x h
    cases hr : st.groupOf r with
    | none =>
      rw [allocGo_cons_none g r rs st c hr]
      exact ih _ _ m x (propagateGroupId_keeps g c _ [r] m x h)
    | some y =>
      rw [allocGo_cons_some g r rs st c y hr]
      exact ih st c m x h

theorem allocGo_isSome_mono (g : Graph) (rs : List Nat) (st : GState)
    (c : Nat) (m : Nat) (h : (st.groupOf m).isSome) :
    ((allocGo g rs st c).1.groupOf m).isSome := by
  rcases Option.isSome_iff_exists.mp h with ⟨x, hx⟩
  rw [allocGo_keeps g rs st c m x hx]
  rfl

/-- Every processed root ends the assembler loop with a group id. -/
theorem allocGo_roots_isSome (g : Graph) (rs : List Nat) (st : GState)
    (c : Nat) :
    ∀ r ∈ rs, r < g.n → ((allocGo g rs st c).1.groupOf r).isSome := by
  induction rs generalizing st c with
  | nil =>
    intro r hr
    cases hr
  | cons a rs ih =>
    intro r hr hlt
    cases ha : st.groupOf a with
    | none =>
      rw [allocGo_cons_none g a rs st c ha]
      rcases List.mem_cons.mp hr with h | h
      · subst h
        refine allocGo_isSome_mono g rs _ _ r ?_
        exact propagateGroupId_todo_isSome g c _ [r] r (List.mem_singleton.mpr rfl) hlt
      · exact ih _ _ r h hlt
    | some y =>
      rw [allocGo_cons_some g a rs st c y ha]
      rcases List.mem_cons.mp hr with h | h
      · subst h
        refine allocGo_isSome_mono g rs st c r ?_
        simp [ha]
      · exact ih st c r h hlt

/-- The closure property survives the whole assembler loop. -/
theorem allocGo_closed (g : Graph) (hWF : g.WF) (rs : List Nat) (st : GState)
    (c : Nat) (hroots : ∀ r ∈ rs, r < g.n)
    (hcl : ∀ m, m < g.n → (st.groupOf m).isSome →
      ∀ x ∈ g.children m, (st.groupOf x).isSome) :
    ∀ m, m < g.n → ((allocGo g rs st c).1.groupOf m).isSome →
      ∀ x ∈ g.children m, ((allocGo g rs st c).1.groupOf x).isSome := by
  induction rs generalizing st c with
  | nil =>
    intro m hm hsome x hx
    rw [allocGo_nil] at hsome ⊢
    exact hcl m hm hsome x hx
  | cons a rs ih =>
    intro m hm hsome x hx
    cases ha : st.groupOf a with
    | none =>
      rw [allocGo_cons_none g a rs st c ha] at hsome ⊢
      refine ih _ _ ?_ ?_ m hm hsome x hx
      · intro r hr
        exact hroots r (List.mem_cons_of_mem _ hr)
      · refine propagateGroupId_closed g c hWF _ [a] ?_ ?_
        · intro m' hm' hsome' x' hx'
          exact Or.inl (hcl m' hm' hsome' x' hx')
        · intro y hy
          rw [List.mem_singleton.mp hy]
          exact hroots a (List.mem_cons_self _ _)
    | some y =>
      rw [allocGo_cons_some g a rs st c y ha] at hsome ⊢
      exact ih st c (fun r hr => hroots r (List.mem_cons_of_mem _ hr)) hcl m hm
        hsome x hx

/-- The assembler loop only grants group ids to nodes reachable from some
processed root. -/
theorem allocGo_source (g : Graph) (rs : List Nat) (st : GState) (c : Nat) :
    ∀ m, ((allocGo g rs st c).1.groupOf m).isSome →
      (st.groupOf m).isSome ∨ ∃ r ∈ rs, Reach g r m := by
  induction rs generalizing st c with
  | nil =>
    intro m h
    rw [allocGo_nil] at h
    exact Or.inl h
  | cons a rs ih =>
    intro m h
    cases ha : st.groupOf a with
    | none =>
      rw [allocGo_cons_none g a rs st c ha] at h
      rcases ih _ _ m h with h2 | ⟨r, hr, hreach⟩
      · rcases propagateGroupId_source g c _ [a] m h2 with h3 | ⟨x, hx, hreach⟩
        · exact Or.inl h3
        · rw [List.mem_singleton.mp hx] at hreach
          exact Or.inr ⟨a, List.mem_cons_self _ _, hreach⟩
      · exact Or.inr ⟨r, List.mem_cons_of_mem _ hr, hreach⟩
    | some y =>
      rw [allocGo_cons_some g a rs st c y ha] at h
      rcases ih st c m h with h2 | ⟨r, hr, hreach⟩
      · exact Or.inl h2
      · exact Or.inr ⟨r, List.mem_cons_of_mem _ hr, hreach⟩

theorem allocGo_symRel (g : Graph) (rs : List Nat) (st : GState) (c : Nat)
    (h : SymRel st) : SymRel (allocGo g rs st c).1 := by
  induction rs generalizing st c with
  | nil =>
    rw [allocGo_nil]
    exact h
  | cons a rs ih =>
    cases ha : st.groupOf a with
    | none =>
      rw [allocGo_cons_none g a rs st c ha]
      exact ih _ _ (propagateGroupId_symRel g c _ [a] h)
    | some y =>
      rw [allocGo_cons_some g a rs st c y ha]
      exact ih st c h


theorem allocGo_log_mem (g : Graph) (rs : List Nat) (st : GState) (c : Nat) :
    ∀ e ∈ (allocGo g rs st c).2.2, e.1 ∈ rs ∧ c ≤ e.2 := by
  induction rs generalizing st c with
  | nil => simp [allocGo_nil]
  | cons a rs ih =>
    intro e he
    cases ha : st.groupOf a with
    | none =>
      rw [allocGo_cons_none g a rs st c ha] at he
      rcases List.mem_cons.mp he with h | h
      · subst h
        exact ⟨List.mem_cons_self _ _, Nat.le_refl c⟩
      · rcases ih _ _ e h with ⟨h1, h2⟩
        exact ⟨List.mem_cons_of_mem _ h1, Nat.le_trans (Nat.le_succ c) h2⟩
    | some y =>
      rw [allocGo_cons_some g a rs st c y ha] at he
      rcases ih st c e he with ⟨h1, h2⟩
      exact ⟨List.mem_cons_of_mem _ h1, h2⟩

/-- The allocation log records the consecutive counter values starting at
`c`: the monotonic-counter shape of group id allocation. -/
theorem allocGo_log_gids (g : Graph) (rs : List Nat) (st : GState) (c : Nat) :
    (allocGo g rs st c).2.2.map Prod.snd =
      List.range' c (allocGo g rs st c).2.2.length := by
  induction rs generalizing st c with
  | nil => simp [allocGo_nil]
  | cons a rs ih =>
    cases ha : st.groupOf a with
    | none =>
      rw [allocGo_cons_none g a rs st c ha]
      simp only [List.map_cons, List.length_cons, List.range'_succ]
      rw [ih]
    | some y =>
      rw [allocGo_cons_some g a rs st c y ha]
      exact ih st c

theorem allocGo_log_pairwise (g : Graph) (starts : Nat → Nat) (rs : List Nat)
    (st : GState) (c : Nat) (hs : List.Sorted (rootLE starts) rs) :
    (allocGo g rs st c).2.2.Pairwise
      (fun a b => starts a.1 ≤ starts b.1 ∧ a.2 < b.2) := by
  induction rs generalizing st c with
  | nil => simp [allocGo_nil]
  | cons a rs ih =>
    rcases List.sorted_cons.mp hs with ⟨hhead, htail⟩
    cases ha : st.groupOf a with
    | none =>
      rw [allocGo_cons_none g a rs st c ha]
      refine List.pairwise_cons.mpr ⟨?_, ih _ _ htail⟩
      intro e he
      rcases allocGo_log_mem g rs _ _ e he with ⟨h1, h2⟩
      exact ⟨hhead e.1 h1, by omega⟩
    | some y =>
      rw [allocGo_cons_some g a rs st c y ha]
      exact ih st c htail

theorem log_lt_of_pairwise (starts : Nat → Nat) (l : List (Nat × Nat))
    (hp : l.Pairwise (fun a b => starts a.1 ≤ starts b.1 ∧ a.2 < b.2)) :
    ∀ x ∈ l, ∀ y ∈ l, starts x.1 < starts y.1 → x.2 < y.2 := by
  induction l with
  | nil =>
    intro x hx
    cases hx
  | cons a t ih =>
    rcases List.pairwise_cons.mp hp with ⟨hhead, htail⟩
    intro x hx y hy hlt
    rcases List.mem_cons.mp hx with hx1 | hx1
    · rcases List.mem_cons.mp hy with hy1 | hy1
      · rw [hx1, hy1] at hlt
        exact absurd hlt (lt_irrefl _)
      · rw [hx1]
        exact (hhead y hy1).2
    · rcases List.mem_cons.mp hy with hy1 | hy1
      · have hle := (hhead x hx1).1
        rw [hy1] at hlt
        omega
      · exact ih htail x hx1 y hy1 hlt


/-! ## Intra-timeline nester

`EventForest::ConnectIntraThread` is not in the header; the nester is
modelled from the spec (section 4.1). -/

/-- The sort order of the nester: ascending start time, ties broken by
descending duration (equivalently, descending end time). -/
def evLE (startf stopf : α → Nat) (a b : α) : Prop :=
  startf a < startf b ∨ (startf a = startf b ∧ stopf b ≤ stopf a)

instance (startf stopf : α → Nat) : DecidableRel (evLE startf stopf) :=
  fun a b => inferInstanceAs
    (Decidable (startf a < startf b ∨ (startf a = startf b ∧ stopf b ≤ stopf a)))

instance (startf stopf : α → Nat) : IsTotal α (evLE startf stopf) := by
  constructor
  intro a b
  unfold evLE
  rcases Nat.lt_trichotomy (startf a) (startf b) with h | h | h
  · exact Or.inl (Or.inl h)
  · rcases Nat.le_total (stopf b) (stopf a) with h2 | h2
    · exact Or.inl (Or.inr ⟨h, h2⟩)
    · exact Or.inr (Or.inr ⟨h.symm, h2⟩)
  · exact Or.inr (Or.inl h)

instance (startf stopf : α → Nat) : IsTrans α (evLE startf stopf) := by
  constructor
  intro a b c hab hbc
  unfold evLE at hab hbc ⊢
  rcases hab with h1 | ⟨h1, h1'⟩ <;> rcases hbc with h2 | ⟨h2, h2'⟩
  · exact Or.inl (Nat.lt_trans h1 h2)
  · exact Or.inl (h2 ▸ h1)
  · exact Or.inl (h1 ▸ h2)
  · exact Or.inr ⟨h1.trans h2, Nat.le_trans h2' h1'⟩

/-- Modelled from the spec (section 4.1): pop the stack while the top's end
time is at most the new event's start time (those intervals have closed). -/
def popClosed (stopf : α → Nat) (s : Nat) : List α → List α
  | [] => []
  | t :: r => if stopf t ≤ s then popClosed stopf s r else t :: r

/-- Modelled from the spec (section 4.1): the single linear scan of the
nester over the sorted events, maintaining the stack of currently open
nodes; each event is paired with its parent, the top of the stack after
popping, if any. -/
def nestScan (startf stopf : α → Nat) : List α → List α → List (α × Option α)
  | _, [] => []
  | stack, e :: rest =>
    (e, (popClosed stopf (startf e) stack).head?) ::
      nestScan startf stopf (e :: popClosed stopf (startf e) stack) rest

/-- Modelled from the spec (section 4.1): `EventForest::ConnectIntraThread`
restricted to one timeline: sort events by ascending start time, ties by
descending duration, then scan with the stack of currently open nodes. -/
def connectIntraThreadLine (startf stopf : α → Nat) (es : List α) :
    List (α × Option α) :=
  nestScan startf stopf [] (List.insertionSort (evLE startf stopf) es)

/-- An interval on one timeline: start time and duration. -/
structure Ev where
  start : Nat
  dur : Nat
deriving DecidableEq

def Ev.stop (e : Ev) : Nat := e.start + e.dur

/-- The nester on a timeline of bare intervals. -/
def nest (es : List Ev) : List (Ev × Option Ev) :=
  connectIntraThreadLine Ev.start Ev.stop es

/-- `q` encloses `e`: `e` begins inside `q`'s half-open span and ends by
`q`'s end (so a zero-duration event at `q`'s start boundary is enclosed,
while one at `q`'s end boundary, where `q` has already closed, is not). -/
def Encloses (q e : Ev) : Prop :=
  q.start ≤ e.start ∧ e.start < q.stop ∧ e.stop ≤ q.stop

/-- Two intervals either do not overlap or are related by containment. -/
def NoPartialOverlap (a b : Ev) : Prop :=
  a.stop ≤ b.start ∨ b.stop ≤ a.start ∨
    (a.start ≤ b.start ∧ b.stop ≤ a.stop) ∨
    (b.start ≤ a.start ∧ a.stop ≤ b.stop)

instance : DecidableRel Encloses := fun q e =>
  inferInstanceAs (Decidable (_ ∧ _ ∧ _))

instance : DecidableRel NoPartialOverlap := fun a b =>
  inferInstanceAs (Decidable (_ ∨ _ ∨ _ ∨ _))

theorem noPartialOverlap_symm : Symmetric NoPartialOverlap := by
  intro a b h
  unfold NoPartialOverlap at h ⊢
  tauto

theorem ev_eq_of_start_stop (s e : Ev) (h1 : s.start = e.start)
    (h2 : s.stop = e.stop) : s = e := by
  cases s
  cases e
  simp only [Ev.stop] at h1 h2
  simp only [Ev.mk.injEq] at h1 ⊢
  omega

theorem evLE_start_le (startf stopf : α → Nat) (a b : α)
    (h : evLE startf stopf a b) : startf a ≤ startf b := by
  rcases h with h | ⟨h, _⟩
  · exact Nat.le_of_lt h
  · exact Nat.le_of_eq h

theorem popClosed_mem (stopf : α → Nat) (s : Nat) (l : List α) :
    ∀ d ∈ popClosed stopf s l, d ∈ l := by
  induction l with
  | nil => simp [popClosed]
  | cons t r ih =>
    intro d hd
    rw [popClosed] at hd
    by_cases ht : stopf t ≤ s
    · rw [if_pos ht] at hd
      exact List.mem_cons_of_mem _ (ih d hd)
    · rw [if_neg ht] at hd
      exact hd

theorem popClosed_suffix (stopf : α → Nat) (s : Nat) (l : List α) :
    (popClosed stopf s l).IsSuffix l := by
  induction l with
  | nil => simp [popClosed]
  | cons t r ih =>
    rw [popClosed]
    by_cases ht : stopf t ≤ s
    · rw [if_pos ht]
      exact ih.trans (List.suffix_cons t r)
    · rw [if_neg ht]

theorem popClosed_dropped (stopf : α → Nat) (s : Nat) (l : List α) :
    ∀ d ∈ l, d ∉ popClosed stopf s l → stopf d ≤ s := by
  induction l with
  | nil =>
    intro d hd
    cases hd
  | cons t r ih =>
    intro d hd hnotin
    rw [popClosed] at hnotin
    by_cases ht : stopf t ≤ s
    · rw [if_pos ht] at hnotin
      rcases List.mem_cons.mp hd with h | h
      · rw [h]
        exact ht
      · exact ih d h hnotin
    · rw [if_neg ht] at hnotin
      exact absurd hd hnotin

theorem popClosed_stop_gt (s : Nat) (l : List Ev)
    (hchain : List.Pairwise (fun a b => Encloses b a) l) :
    ∀ d ∈ popClosed Ev.stop s l, s < d.stop := by
  induction l with
  | nil => simp [popClosed]
  | cons t r ih =>
    rcases List.pairwise_cons.mp hchain with ⟨hhead, htail⟩
    intro d hd
    rw [popClosed] at hd
    by_cases ht : Ev.stop t ≤ s
    · rw [if_pos ht] at hd
      exact ih htail d hd
    · rw [if_neg ht] at hd
      rcases List.mem_cons.mp hd with h | h
      · subst h
        omega
      · have h2 : t.stop ≤ d.stop := (hhead d h).2.2
        omega

theorem nestScan_map_fst (startf stopf : α → Nat) (rest : List α) :
    ∀ stack, (nestScan startf stopf stack rest).map Prod.fst = rest := by
  induction rest with
  | nil => intro stack; rfl
  | cons e rest ih =>
    intro stack
    rw [nestScan]
    simp only [List.map_cons]
    rw [ih]


theorem Ev.start_le_stop (e : Ev) : e.start ≤ e.stop := Nat.le_add_right _ _

/-- A processed event still open when `e0` arrives encloses `e0`. -/
theorem stack_encloses (done rest : List Ev) (e0 s : Ev)
    (hsorted : List.Sorted (evLE Ev.start Ev.stop) (done ++ e0 :: rest))
    (hnpo : (done ++ e0 :: rest).Pairwise NoPartialOverlap)
    (hsdone : s ∈ done) (hstop : e0.start < s.stop) :
    Encloses s e0 := by
  have hkey : evLE Ev.start Ev.stop s e0 :=
    (List.pairwise_append.mp hsorted).2.2 s hsdone e0 (List.mem_cons_self _ _)
  have hnpo2 : NoPartialOverlap s e0 :=
    (List.pairwise_append.mp hnpo).2.2 s hsdone e0 (List.mem_cons_self _ _)
  refine ⟨evLE_start_le _ _ _ _ hkey, hstop, ?_⟩
  rcases hkey with hk | ⟨hk, hk'⟩
  · rcases hnpo2 with h | h | ⟨h1, h2⟩ | ⟨h1, h2⟩
    · omega
    · have h3 := Ev.start_le_stop e0
      omega
    · exact h2
    · omega
  · exact hk'

/-- A later event in the sorted order never encloses `e0`. -/
theorem later_not_encloses (done rest : List Ev) (e0 q : Ev)
    (hsorted : List.Sorted (evLE Ev.start Ev.stop) (done ++ e0 :: rest))
    (he0rest : e0 ∉ rest) (hq : q ∈ rest) : ¬ Encloses q e0 := by
  intro henc
  have hsr : List.Sorted (evLE Ev.start Ev.stop) (e0 :: rest) :=
    (List.pairwise_append.mp hsorted).2.1
  have hkey : evLE Ev.start Ev.stop e0 q := (List.sorted_cons.mp hsr).1 q hq
  rcases henc with ⟨h1, h2, h3⟩
  rcases hkey with hk | ⟨hk, hk'⟩
  · omega
  · have hqe : q = e0 :=
      ev_eq_of_start_stop q e0 (by omega) (by omega)
    exact he0rest (hqe ▸ hq)


/-- The scan invariant: over a sorted, duplicate-free, partial-overlap-free
timeline, every emitted parent is a minimal enclosing interval and a `none`
parent means no enclosing interval exists. -/
theorem nestScan_spec (rest : List Ev) :
    ∀ (stack done : List Ev),
    List.Sorted (evLE Ev.start Ev.stop) (done ++ rest) →
    (done ++ rest).Nodup →
    (done ++ rest).Pairwise NoPartialOverlap →
    (∀ s ∈ stack, s ∈ done) →
    List.Pairwise (fun a b => Encloses b a) stack →
    (∀ d ∈ done, d ∉ stack → ∀ r ∈ rest, d.stop ≤ r.start) →
    ∀ e op, (e, op) ∈ nestScan Ev.start Ev.stop stack rest →
      ((∀ p, op = some p → p ∈ done ++ rest ∧ p ≠ e ∧ Encloses p e ∧
          ∀ q ∈ done ++ rest, q ≠ e → Encloses q e → Encloses q p) ∧
       (op = none → ∀ q ∈ done ++ rest, q ≠ e → ¬ Encloses q e)) := by
  induction rest with
  | nil =>
    intro stack done _ _ _ _ _ _ e op hmem
    cases hmem
  | cons e0 rest ih =>
    intro stack done hsorted hnodup hnpo hsub hchain hpopped e op hmem
    have happ : done ++ e0 :: rest = (done ++ [e0]) ++ rest := by
      simp
    have hS2mem : ∀ s ∈ popClosed Ev.stop e0.start stack, s ∈ stack :=
      popClosed_mem _ _ _
    have hS2done : ∀ s ∈ popClosed Ev.stop e0.start stack, s ∈ done :=
      fun s hs => hsub s (hS2mem s hs)
    have hS2stop : ∀ s ∈ popClosed Ev.stop e0.start stack, e0.start < s.stop :=
      popClosed_stop_gt _ _ hchain
    have hS2enc : ∀ s ∈ popClosed Ev.stop e0.start stack, Encloses s e0 :=
      fun s hs =>
        stack_encloses done rest e0 s hsorted hnpo (hS2done s hs) (hS2stop s hs)
    have hchain2 :
        List.Pairwise (fun a b => Encloses b a)
          (popClosed Ev.stop e0.start stack) :=
      hchain.sublist (popClosed_suffix _ _ _).sublist
    have he0done : e0 ∉ done := by
      have hdisj := (List.nodup_append.mp hnodup).2.2
      intro h
      exact hdisj h (List.mem_cons_self _ _)
    have he0rest : e0 ∉ rest := by
      have h2 := (List.nodup_append.mp hnodup).2.1
      exact (List.nodup_cons.mp h2).1
    have hnotenc_rest : ∀ q ∈ rest, ¬ Encloses q e0 := fun q hq =>
      later_not_encloses done rest e0 q hsorted he0rest hq
    have hnotenc_done :
        ∀ q ∈ done, q ∉ popClosed Ev.stop e0.start stack → ¬ Encloses q e0 := by
      intro q hq hqn henc
      by_cases hqs : q ∈ stack
      · have hd := popClosed_dropped Ev.stop e0.start stack q hqs hqn
        rcases henc with ⟨_, h2, _⟩
        omega
      · have hd := hpopped q hq hqs e0 (List.mem_cons_self _ _)
        rcases henc with ⟨_, h2, _⟩
        omega
    rw [nestScan] at hmem
    rcases List.mem_cons.mp hmem with hhead | htail
    · have hee : e = e0 ∧ op = (popClosed Ev.stop e0.start stack).head? := by
        rw [Prod.mk.injEq] at hhead
        exact hhead
      obtain ⟨he, hop⟩ := hee
      subst he
      cases hs2 : popClosed Ev.stop e.start stack with
      | nil =>
        constructor
        · intro p hp
          rw [hop, hs2] at hp
          cases hp
        · intro _ q hq hqe
          rcases List.mem_append.mp hq with h | h
          · exact hnotenc_done q h (by simp [hs2])
          · rcases List.mem_cons.mp h with h2 | h2
            · exact absurd h2 hqe
            · exact hnotenc_rest q h2
      | cons t tl =>
        have htmem : t ∈ popClosed Ev.stop e.start stack := by
          rw [hs2]
          exact List.mem_cons_self _ _
        have htenc : Encloses t e := hS2enc t htmem
        constructor
        · intro p hp
          rw [hop, hs2] at hp
          simp only [List.head?_cons, Option.some.injEq] at hp
          subst hp
          refine ⟨List.mem_append_left _ (hS2done t htmem), ?_, htenc, ?_⟩
          · intro h
            exact he0done (h ▸ hS2done t htmem)
          · intro q hq hqe henc
            rcases List.mem_append.mp hq with h | h
            · by_cases hq2 : q ∈ popClosed Ev.stop e.start stack
              · rw [hs2] at hq2
                rcases List.mem_cons.mp hq2 with h3 | h3
                · subst h3
                  exact ⟨Nat.le_refl _,
                    Nat.lt_of_le_of_lt htenc.1 htenc.2.1, Nat.le_refl _⟩
                · exact (List.pairwise_cons.mp (hs2 ▸ hchain2)).1 q h3
              · exact absurd henc (hnotenc_done q h hq2)
            · rcases List.mem_cons.mp h with h2 | h2
              · exact absurd h2 hqe
              · exact absurd henc (hnotenc_rest q h2)
        · intro hnone
          rw [hop, hs2] at hnone
          cases hnone
    · have hres := ih (e0 :: popClosed Ev.stop e0.start stack) (done ++ [e0])
        (happ ▸ hsorted) (happ ▸ hnodup) (happ ▸ hnpo) ?_ ?_ ?_ e op htail
      · rw [← happ] at hres
        exact hres
      · intro s hs
        rcases List.mem_cons.mp hs with h | h
        · subst h
          exact List.mem_append_right _ (List.mem_singleton.mpr rfl)
        · exact List.mem_append_left _ (hS2done s h)
      · exact List.pairwise_cons.mpr ⟨hS2enc, hchain2⟩
      · intro d hd hdn r hr
        rcases List.mem_append.mp hd with h | h
        · have hdn2 : d ∉ popClosed Ev.stop e0.start stack := by
            intro h2
            exact hdn (List.mem_cons_of_mem _ h2)
          have hestart : e0.start ≤ r.start := by
            have hsr : List.Sorted (evLE Ev.start Ev.stop) (e0 :: rest) :=
              (List.pairwise_append.mp hsorted).2.1
            exact evLE_start_le _ _ _ _ ((List.sorted_cons.mp hsr).1 r hr)
          by_cases hds : d ∈ stack
          · have hd3 := popClosed_dropped Ev.stop e0.start stack d hds hdn2
            omega
          · exact hpopped d h hds r (List.mem_cons_of_mem _ hr)
        · rw [List.mem_singleton.mp h] at hdn
          exact absurd (List.mem_cons_self _ _) hdn


/-- C1: on any set of same-timeline intervals (pairwise distinct, as a set)
with no partial overlaps, the intra-timeline nester — sort by ascending
start time, ties by descending duration, then a single scan with a stack of
currently open nodes — emits every event exactly once, assigns each event a
parent that is a minimal enclosing interval of it, and assigns no parent
exactly when no enclosing interval exists. -/
theorem C1_nester_minimal_enclosing (es : List Ev) (hnodup : es.Nodup)
    (hnpo : es.Pairwise NoPartialOverlap) :
    ((nest es).map Prod.fst).Perm es ∧
    ∀ e op, (e, op) ∈ nest es →
      ((∀ p, op = some p → p ∈ es ∧ p ≠ e ∧ Encloses p e ∧
          ∀ q ∈ es, q ≠ e → Encloses q e → Encloses q p) ∧
       (op = none → ∀ q ∈ es, q ≠ e → ¬ Encloses q e)) := by
  have hperm : (List.insertionSort (evLE Ev.start Ev.stop) es).Perm es :=
    List.perm_insertionSort _ _
  constructor
  · rw [nest, connectIntraThreadLine, nestScan_map_fst]
    exact hperm
  · intro e op hmem
    rw [nest, connectIntraThreadLine] at hmem
    have hspec := nestScan_spec (List.insertionSort (evLE Ev.start Ev.stop) es)
      [] []
      (by
        simp only [List.nil_append]
        exact List.sorted_insertionSort (evLE Ev.start Ev.stop) es)
      (by
        simp only [List.nil_append]
        exact (hperm.nodup_iff).mpr hnodup)
      (by
        simp only [List.nil_append]
        exact (hperm.pairwise_iff (fun h => noPartialOverlap_symm h)).mpr hnpo)
      (fun s hs => absurd hs (List.not_mem_nil s))
      List.Pairwise.nil
      (fun d hd => absurd hd (List.not_mem_nil d))
      e op hmem
    simp only [List.nil_append] at hspec
    obtain ⟨h1, h2⟩ := hspec
    constructor
    · intro p hp
      obtain ⟨hp1, hp2, hp3, hp4⟩ := h1 p hp
      refine ⟨hperm.mem_iff.mp hp1, hp2, hp3, ?_⟩
      intro q hq hqe hqenc
      exact hp4 q (hperm.mem_iff.mpr hq) hqe hqenc
    · intro hnone q hq hqe
      exact h2 hnone q (hperm.mem_iff.mpr hq) hqe


theorem C1_nester_minimal_enclosing_witness :
    (nest [⟨0, 100⟩, ⟨10, 30⟩, ⟨50, 40⟩] =
      [(⟨0, 100⟩, none), (⟨10, 30⟩, some ⟨0, 100⟩), (⟨50, 40⟩, some ⟨0, 100⟩)] ∧
     ([⟨0, 100⟩, ⟨10, 30⟩, ⟨50, 40⟩] : List Ev).Nodup ∧
     ([⟨0, 100⟩, ⟨10, 30⟩, ⟨50, 40⟩] : List Ev).Pairwise NoPartialOverlap) ∧
    (((nest [⟨0, 100⟩, ⟨10, 30⟩, ⟨50, 40⟩]).map Prod.fst).Perm
        [⟨0, 100⟩, ⟨10, 30⟩, ⟨50, 40⟩] ∧
     ∀ e op, (e, op) ∈ nest [⟨0, 100⟩, ⟨10, 30⟩, ⟨50, 40⟩] →
      ((∀ p, op = some p →
          p ∈ ([⟨0, 100⟩, ⟨10, 30⟩, ⟨50, 40⟩] : List Ev) ∧ p ≠ e ∧
          Encloses p e ∧
          ∀ q ∈ ([⟨0, 100⟩, ⟨10, 30⟩, ⟨50, 40⟩] : List Ev), q ≠ e →
            Encloses q e → Encloses q p) ∧
       (op = none →
          ∀ q ∈ ([⟨0, 100⟩, ⟨10, 30⟩, ⟨50, 40⟩] : List Ev), q ≠ e →
            ¬ Encloses q e))) :=
  ⟨⟨by decide, by decide, by decide⟩,
    C1_nester_minimal_enclosing [⟨0, 100⟩, ⟨10, 30⟩, ⟨50, 40⟩]
      (by decide) (by decide)⟩


/-- C2: group ids are allocated by a monotonic counter starting at 0 (the
allocation log's ids are exactly `0, 1, 2, ...` in order), and ids follow
root start times: any two roots that were both unassigned when processed
(hence appear in the allocation log) with strictly ordered start times
receive strictly ordered group ids. -/
theorem C2_group_ids_monotonic (g : Graph) (starts : Nat → Nat)
    (loopRoots legacyRoots : List Nat) (r1 g1 r2 g2 : Nat)
    (h1 : (r1, g1) ∈ (createEventGroup g starts loopRoots legacyRoots).2.2)
    (h2 : (r2, g2) ∈ (createEventGroup g starts loopRoots legacyRoots).2.2)
    (hlt : starts r1 < starts r2) :
    g1 < g2 ∧
    (createEventGroup g starts loopRoots legacyRoots).2.2.map Prod.snd =
      List.range' 0 (createEventGroup g starts loopRoots legacyRoots).2.2.length := by
  unfold createEventGroup at h1 h2 ⊢
  constructor
  · have hsorted : List.Sorted (rootLE starts)
        (List.insertionSort (rootLE starts) (usedRoots loopRoots legacyRoots)) :=
      List.sorted_insertionSort _ _
    have hp := allocGo_log_pairwise g starts _ initState 0 hsorted
    exact log_lt_of_pairwise starts _ hp (r1, g1) h1 (r2, g2) h2 hlt
  · exact allocGo_log_gids g _ initState 0

theorem C2_group_ids_monotonic_witness :
    (((0, 0) ∈ (createEventGroup ⟨2, fun _ => []⟩ (fun i => i) [] [0, 1]).2.2 ∧
      (1, 1) ∈ (createEventGroup ⟨2, fun _ => []⟩ (fun i => i) [] [0, 1]).2.2 ∧
      (fun i => i : Nat → Nat) 0 < (fun i => i : Nat → Nat) 1)) ∧
    ((0 : Nat) < 1 ∧
     (createEventGroup ⟨2, fun _ => []⟩ (fun i => i) [] [0, 1]).2.2.map Prod.snd =
       List.range' 0
         (createEventGroup ⟨2, fun _ => []⟩ (fun i => i) [] [0, 1]).2.2.length) := by
  have hlog : (createEventGroup ⟨2, fun _ => []⟩ (fun i => i) [] [0, 1]).2.2 =
      [(0, 0), (1, 1)] := by
    simp [createEventGroup, usedRoots, List.insertionSort, List.orderedInsert,
      rootLE, allocGo, propagateGroupId_cons_none, propagateGroupId_nil,
      initState, GState.newGroup, GState.assign]
  have hm1 : (0, 0) ∈ (createEventGroup ⟨2, fun _ => []⟩ (fun i => i) [] [0, 1]).2.2 := by
    rw [hlog]
    decide
  have hm2 : (1, 1) ∈ (createEventGroup ⟨2, fun _ => []⟩ (fun i => i) [] [0, 1]).2.2 := by
    rw [hlog]
    decide
  exact ⟨⟨hm1, hm2, by decide⟩,
    C2_group_ids_monotonic ⟨2, fun _ => []⟩ (fun i => i) [] [0, 1] 0 0 1 1 hm1 hm2
      (by decide)⟩

/-- C3: when group propagation reaches a node that already carries a
different group id, the existing id is never overwritten (first assignment
wins; no failure state exists in the model) and instead the parent/child
relationship between the propagating group and the existing group is
recorded in both directions in the group metadata map. -/
theorem C3_first_assignment_wins (g : Graph) (gid : Nat) (st : GState)
    (todo : List Nat) (n ge : Nat)
    (hmem : n ∈ todo) (hn : n < g.n) (hge : st.groupOf n = some ge)
    (hne : ge ≠ gid) :
    (∀ m x, st.groupOf m = some x →
      (propagateGroupId g gid st todo).groupOf m = some x) ∧
    ge ∈ (propagateGroupId g gid st todo).gchildren gid ∧
    gid ∈ (propagateGroupId g gid st todo).gparents ge := by
  refine ⟨propagateGroupId_keeps g gid st todo, ?_, ?_⟩
  · exact (propagateGroupId_records g gid st todo n ge hmem hn hge hne).1
  · exact (propagateGroupId_records g gid st todo n ge hmem hn hge hne).2

theorem C3_first_assignment_wins_witness :
    ((1 ∈ ([1] : List Nat)) ∧ (1 : Nat) < 2 ∧
      (initState.assign 1 7).groupOf 1 = some 7 ∧ (7 : Nat) ≠ 0) ∧
    ((∀ m x, (initState.assign 1 7).groupOf m = some x →
        (propagateGroupId ⟨2, fun _ => []⟩ 0 (initState.assign 1 7) [1]).groupOf m =
          some x) ∧
     7 ∈ (propagateGroupId ⟨2, fun _ => []⟩ 0 (initState.assign 1 7) [1]).gchildren 0 ∧
     0 ∈ (propagateGroupId ⟨2, fun _ => []⟩ 0 (initState.assign 1 7) [1]).gparents 7) :=
  ⟨⟨by decide, by decide, by decide, by decide⟩,
    C3_first_assignment_wins ⟨2, fun _ => []⟩ 0 (initState.assign 1 7) [1] 1 7
      (by decide) (by decide) (by decide) (by decide)⟩


/-! ## Cross-timeline connectors and the pipeline

The connector pass bodies are not in the header; they are modelled from
the spec (sections 4.2, 4.3, 4.5 and 2). -/

/-- An event as the connectors see it: interval, event type, typed stats
and the optional producer/consumer contexts of `EventNode`. -/
structure Node where
  start : Nat
  dur : Nat
  etype : Int
  stats : List (Int × Int)
  producerCtx : Option (Int × Nat)
  consumerCtx : Option (Int × Nat)
deriving DecidableEq

/-- From the source (`group_events.h`, `InterThreadConnectInfo`): parent and
child event types plus the stat types whose values must agree. -/
structure InterThreadConnectInfo where
  parent_event_type : Int
  child_event_type : Int
  parent_stat_types : List Int
  child_stat_types : List Int
deriving DecidableEq

/-- The tuple of stat values of a node at the given stat types; `none` as
soon as any required stat is missing. -/
def statTuple (nd : Node) : List Int → Option (List Int)
  | [] => some []
  | t :: ts =>
    match List.lookup t nd.stats, statTuple nd ts with
    | some v, some vs => some (v :: vs)
    | _, _ => none

/-- Append `i` to the bucket of key `k` in an association list, creating
the bucket if needed. -/
def mapAppend (m : List (List Int × List Nat)) (k : List Int) (i : Nat) :
    List (List Int × List Nat) :=
  match m with
  | [] => [(k, [i])]
  | (k2, l) :: rest =>
    if k = k2 then (k2, l ++ [i]) :: rest else (k2, l) :: mapAppend rest k i

def lookupL (k : List Int) : List (List Int × List Nat) → List Nat
  | [] => []
  | (k2, l) :: rest => if k = k2 then l else lookupL k rest

/-- Modelled from the spec (section 4.2): the per-rule map from the tuple
of parent-side stat values to the candidate parent nodes of the rule's
parent event type; a parent-side node lacking a required stat is skipped. -/
def ruleParentMap (nodes : List (Nat × Node)) (ru : InterThreadConnectInfo) :
    List (List Int × List Nat) :=
  nodes.foldl
    (fun m x =>
      if x.2.etype = ru.parent_event_type then
        match statTuple x.2 ru.parent_stat_types with
        | some v => mapAppend m v x.1
        | none => m
      else m) []

/-- Modelled from the spec (section 4.2): one rule of
`EventForest::ConnectInterThread`; every node of the rule's child event
type whose child stat tuple is present and found in the parent map gains
every matching candidate as a parent via `AddChild`. -/
def applyRule (g : NodeGraph) (nodes : List (Nat × Node))
    (ru : InterThreadConnectInfo) : NodeGraph :=
  nodes.foldl
    (fun h x =>
      if x.2.etype = ru.child_event_type then
        match statTuple x.2 ru.child_stat_types with
        | some v =>
          (lookupL v (ruleParentMap nodes ru)).foldl
            (fun h2 p => addChild h2 p x.1) h
        | none => h
      else h) g

/-- Modelled from the spec (section 4.2): `EventForest::ConnectInterThread`
evaluates the rules independently, in list order. -/
def connectInterThread (g : NodeGraph) (nodes : List (Nat × Node))
    (rules : List InterThreadConnectInfo) : NodeGraph :=
  rules.foldl (fun h ru => applyRule h nodes ru) g

/-- Append a producer to the context registry bucket of key `k`. -/
def regAddProducer (m : List ((Int × Nat) × (List Nat × List Nat)))
    (k : Int × Nat) (i : Nat) : List ((Int × Nat) × (List Nat × List Nat)) :=
  match m with
  | [] => [(k, ([i], []))]
  | (k2, pc) :: rest =>
    if k = k2 then (k2, (pc.1 ++ [i], pc.2)) :: rest
    else (k2, pc) :: regAddProducer rest k i

/-- Append a consumer to the context registry bucket of key `k`. -/
def regAddConsumer (m : List ((Int × Nat) × (List Nat × List Nat)))
    (k : Int × Nat) (i : Nat) : List ((Int × Nat) × (List Nat × List Nat)) :=
  match m with
  | [] => [(k, ([], [i]))]
  | (k2, pc) :: rest =>
    if k = k2 then (k2, (pc.1, pc.2 ++ [i])) :: rest
    else (k2, pc) :: regAddConsumer rest k i

def lookupReg (k : Int × Nat) :
    List ((Int × Nat) × (List Nat × List Nat)) → Option (List Nat × List Nat)
  | [] => none
  | (k2, pc) :: rest => if k = k2 then some pc else lookupReg k rest

def addProducerOpt (m : List ((Int × Nat) × (List Nat × List Nat)))
    (x : Nat × Node) : List ((Int × Nat) × (List Nat × List Nat)) :=
  match x.2.producerCtx with
  | some k => regAddProducer m k x.1
  | none => m

def addConsumerOpt (m : List ((Int × Nat) × (List Nat × List Nat)))
    (x : Nat × Node) : List ((Int × Nat) × (List Nat × List Nat)) :=
  match x.2.consumerCtx with
  | some k => regAddConsumer m k x.1
  | none => m

/-- Modelled from the spec (section 4.3): scan every node into the
`(context kind, context id)` registry (`ContextGroupMap`): a node exposing
a producer context is appended to that key's producer list, one exposing a
consumer context to its consumer list. -/
def buildContextGroups (nodes : List (Nat × Node)) :
    List ((Int × Nat) × (List Nat × List Nat)) :=
  nodes.foldl (fun m x => addConsumerOpt (addProducerOpt m x) x) []

/-- Link every producer as a parent of every consumer. -/
def linkAll (h : NodeGraph) (ps cs : List Nat) : NodeGraph :=
  ps.foldl (fun h2 p => cs.foldl (fun h3 c => addChild h3 p c) h2) h

/-- Modelled from the spec (section 4.3): after the scan, for every key
with at least one producer and at least one consumer, every producer is
linked as a parent of every consumer (full cross product). -/
def connectContextGroups (g : NodeGraph) (nodes : List (Nat × Node)) :
    NodeGraph :=
  (buildContextGroups nodes).foldl
    (fun h e =>
      if e.2.1 ≠ [] ∧ e.2.2 ≠ [] then linkAll h e.2.1 e.2.2 else h) g

/-- Modelled from the spec (section 4.5): loop-iteration detection on one
timeline: scanning in timeline order, an executor-typed event whose
predecessor is not executor-typed (or which is first overall) starts a new
iteration and is registered as a loop root. -/
def loopRootScan (executorType : Int) (tl : List (Nat × Node)) : List Nat :=
  (tl.foldl
    (fun acc x =>
      if x.2.etype = executorType then
        (if acc.2 then acc.1 else acc.1 ++ [x.1], true)
      else (acc.1, false))
    (([] : List Nat), false)).1

/-- Global node ids: timelines are indexed consecutively. -/
def indexTimelinesFrom : Nat → List (List Node) → List (List (Nat × Node))
  | _, [] => []
  | i, tl :: rest => tl.enumFrom i :: indexTimelinesFrom (i + tl.length) rest

def indexedTimelines (space : List (List Node)) : List (List (Nat × Node)) :=
  indexTimelinesFrom 0 space

def allNodes (space : List (List Node)) : List (Nat × Node) :=
  (indexedTimelines space).flatten

/-- Modelled from the spec (section 4.1): `EventForest::ConnectIntraThread`
over the whole trace: run the nester on every timeline and materialise each
parent assignment with `AddChild`. -/
def connectIntraThread (space : List (List Node)) : NodeGraph :=
  (indexedTimelines space).foldl
    (fun g tl =>
      (connectIntraThreadLine (fun x => x.2.start) (fun x => x.2.start + x.2.dur)
          tl).foldl
        (fun h ep =>
          match ep.2 with
          | some p => addChild h p.1 ep.1.1
          | none => h) g)
    NodeGraph.empty

/-- The configuration and trace accepted by `EventForest`. -/
structure PipelineInput where
  space : List (List Node)
  connect_info_list : List InterThreadConnectInfo
  root_event_types : List Int
  executorType : Int
deriving DecidableEq

/-- Modelled from the spec (section 4.4): `ProcessLegacyRootEvents`: a node
is a legacy root when its event type is in the configured root-event-type
list. -/
def legacyRootEvents (space : List (List Node)) (rootTypes : List Int) :
    List Nat :=
  ((allNodes space).filter (fun x => decide (x.2.etype ∈ rootTypes))).map
    Prod.fst

/-- Modelled from the spec (section 4.5): `ProcessTensorFlowLoop` registers
the loop-iteration roots of every timeline (`tf_loop_root_events_`). -/
def tfLoopRootEvents (space : List (List Node)) (executorType : Int) :
    List Nat :=
  (indexedTimelines space).foldl (fun acc tl => acc ++ loopRootScan executorType tl)
    []

/-- Start time of the node with a given id. -/
def startsOf : List (Nat × Node) → Nat → Nat
  | [], _ => 0
  | x :: r, i => if x.1 = i then x.2.start else startsOf r i

/-- The node graph after all three connection passes. -/
def pipelineNodeGraph (inp : PipelineInput) : NodeGraph :=
  connectContextGroups
    (connectInterThread (connectIntraThread inp.space) (allNodes inp.space)
      inp.connect_info_list)
    (allNodes inp.space)

def pipelineGraph (inp : PipelineInput) : Graph :=
  ⟨(allNodes inp.space).length, (pipelineNodeGraph inp).childrenOf⟩

/-- The root set the assembler uses: loop-iteration roots supersede the
legacy roots whenever any exist. -/
def pipelineRoots (inp : PipelineInput) : List Nat :=
  usedRoots (tfLoopRootEvents inp.space inp.executorType)
    (legacyRootEvents inp.space inp.root_event_types)

/-- Modelled from the spec (section 2, control flow): the full grouping
pipeline: per-timeline nesting, rule-based connection, context-based
connection, loop-root detection, legacy root marking, then group
assignment. -/
def pipeline (inp : PipelineInput) : GState × Nat × List (Nat × Nat) :=
  createEventGroup (pipelineGraph inp) (startsOf (allNodes inp.space))
    (tfLoopRootEvents inp.space inp.executorType)
    (legacyRootEvents inp.space inp.root_event_types)


/-- C4: after the pipeline completes, the group relationship sets in the
group metadata map are symmetric: a group `a` appears in group `b`'s
parent set exactly when `b` appears in `a`'s child set (in particular for
any two distinct groups). -/
theorem C4_group_relationships_symmetric (inp : PipelineInput) :
    ∀ a b, a ∈ (pipeline inp).1.gparents b ↔ b ∈ (pipeline inp).1.gchildren a := by
  have hinit : SymRel initState := by
    intro a b
    simp [initState]
  unfold pipeline createEventGroup
  exact allocGo_symRel _ _ initState 0 hinit

/-- C6: the pipeline is a deterministic pure function: two runs on equal
(unmutated) copies of the same trace with the same configuration produce
identical group ids, group names, relationship sets and allocation logs. -/
theorem C6_pipeline_deterministic (i1 i2 : PipelineInput) (h : i1 = i2) :
    (∀ m, (pipeline i1).1.groupOf m = (pipeline i2).1.groupOf m) ∧
    (∀ gid, (pipeline i1).1.gnameRoot gid = (pipeline i2).1.gnameRoot gid) ∧
    (∀ a b, ((a ∈ (pipeline i1).1.gparents b) ↔ (a ∈ (pipeline i2).1.gparents b)) ∧
      ((b ∈ (pipeline i1).1.gchildren a) ↔ (b ∈ (pipeline i2).1.gchildren a))) ∧
    (pipeline i1).2.2 = (pipeline i2).2.2 := by
  subst h
  exact ⟨fun _ => rfl, fun _ => rfl, fun _ _ => ⟨Iff.rfl, Iff.rfl⟩, rfl⟩

theorem C6_pipeline_deterministic_witness :
    ((⟨[[⟨0, 10, 1, [], none, none⟩]], [], [1], 9⟩ : PipelineInput) =
      (⟨[[⟨0, 10, 1, [], none, none⟩]], [], [1], 9⟩ : PipelineInput)) ∧
    ((∀ m, (pipeline ⟨[[⟨0, 10, 1, [], none, none⟩]], [], [1], 9⟩).1.groupOf m =
        (pipeline ⟨[[⟨0, 10, 1, [], none, none⟩]], [], [1], 9⟩).1.groupOf m) ∧
     (∀ gid, (pipeline ⟨[[⟨0, 10, 1, [], none, none⟩]], [], [1], 9⟩).1.gnameRoot gid =
        (pipeline ⟨[[⟨0, 10, 1, [], none, none⟩]], [], [1], 9⟩).1.gnameRoot gid) ∧
     (∀ a b,
        ((a ∈ (pipeline ⟨[[⟨0, 10, 1, [], none, none⟩]], [], [1], 9⟩).1.gparents b) ↔
         (a ∈ (pipeline ⟨[[⟨0, 10, 1, [], none, none⟩]], [], [1], 9⟩).1.gparents b)) ∧
        ((b ∈ (pipeline ⟨[[⟨0, 10, 1, [], none, none⟩]], [], [1], 9⟩).1.gchildren a) ↔
         (b ∈ (pipeline ⟨[[⟨0, 10, 1, [], none, none⟩]], [], [1], 9⟩).1.gchildren a))) ∧
     (pipeline ⟨[[⟨0, 10, 1, [], none, none⟩]], [], [1], 9⟩).2.2 =
       (pipeline ⟨[[⟨0, 10, 1, [], none, none⟩]], [], [1], 9⟩).2.2) :=
  ⟨rfl, C6_pipeline_deterministic _ _ rfl⟩

/-- C9: loop-iteration roots have absolute priority: whenever any were
detected, they and only they form the root set of group assignment, and
the whole pipeline result is independent of the configured legacy
root-event-type list. -/
theorem C9_loop_roots_override (inp : PipelineInput)
    (hne : tfLoopRootEvents inp.space inp.executorType ≠ []) :
    pipelineRoots inp = tfLoopRootEvents inp.space inp.executorType ∧
    ∀ rts : List Int,
      pipeline ⟨inp.space, inp.connect_info_list, rts, inp.executorType⟩ =
        pipeline inp := by
  have hemp : (tfLoopRootEvents inp.space inp.executorType).isEmpty = false := by
    cases h2 : (tfLoopRootEvents inp.space inp.executorType).isEmpty
    · rfl
    · exact absurd (List.isEmpty_iff.mp h2) hne
  have hUR : ∀ x, usedRoots (tfLoopRootEvents inp.space inp.executorType) x =
      tfLoopRootEvents inp.space inp.executorType := by
    intro x
    unfold usedRoots
    rw [hemp]
    rfl
  refine ⟨hUR _, ?_⟩
  intro rts
  have h1 : pipeline ⟨inp.space, inp.connect_info_list, rts, inp.executorType⟩ =
      createEventGroup (pipelineGraph inp) (startsOf (allNodes inp.space))
        (tfLoopRootEvents inp.space inp.executorType)
        (legacyRootEvents inp.space rts) := rfl
  have h2 : pipeline inp =
      createEventGroup (pipelineGraph inp) (startsOf (allNodes inp.space))
        (tfLoopRootEvents inp.space inp.executorType)
        (legacyRootEvents inp.space inp.root_event_types) := rfl
  rw [h1, h2]
  unfold createEventGroup
  rw [hUR, hUR]

theorem C9_loop_roots_override_witness :
    (tfLoopRootEvents [[⟨0, 10, 5, [], none, none⟩]] 5 ≠ []) ∧
    (pipelineRoots ⟨[[⟨0, 10, 5, [], none, none⟩]], [], [], 5⟩ =
      tfLoopRootEvents [[⟨0, 10, 5, [], none, none⟩]] 5 ∧
     ∀ rts : List Int,
       pipeline ⟨[[⟨0, 10, 5, [], none, none⟩]], [], rts, 5⟩ =
         pipeline ⟨[[⟨0, 10, 5, [], none, none⟩]], [], [], 5⟩) :=
  ⟨by decide, C9_loop_roots_override ⟨[[⟨0, 10, 5, [], none, none⟩]], [], [], 5⟩
    (by decide)⟩


/-- C5: at the end of the pipeline, a node carries a group id exactly when
it is reachable along child edges from some used root (the `Option`-valued
group id makes more than one id impossible by construction), and a node
unreachable from every root carries none — a valid state, not an error. -/
theorem C5_group_coverage (inp : PipelineInput)
    (hWF : (pipelineGraph inp).WF)
    (hroots : ∀ r ∈ pipelineRoots inp, r < (pipelineGraph inp).n) :
    ∀ m, m < (pipelineGraph inp).n →
      (((pipeline inp).1.groupOf m).isSome ↔
        ∃ r ∈ pipelineRoots inp, Reach (pipelineGraph inp) r m) := by
  intro m hm
  have hQ : (pipeline inp).1 =
      (allocGo (pipelineGraph inp)
        (List.insertionSort (rootLE (startsOf (allNodes inp.space)))
          (pipelineRoots inp)) initState 0).1 := rfl
  rw [hQ]
  have hmemL : ∀ r : Nat,
      r ∈ List.insertionSort (rootLE (startsOf (allNodes inp.space)))
        (pipelineRoots inp) ↔ r ∈ pipelineRoots inp :=
    fun r => List.mem_insertionSort _
  constructor
  · intro hsome
    rcases allocGo_source (pipelineGraph inp)
        (List.insertionSort (rootLE (startsOf (allNodes inp.space)))
          (pipelineRoots inp)) initState 0 m hsome with h | ⟨r, hr, hreach⟩
    · simp [initState] at h
    · exact ⟨r, (hmemL r).mp hr, hreach⟩
  · rintro ⟨r, hr, hreach⟩
    have hrootsL : ∀ x ∈ List.insertionSort (rootLE (startsOf (allNodes inp.space)))
        (pipelineRoots inp), x < (pipelineGraph inp).n :=
      fun x hx => hroots x ((hmemL x).mp hx)
    have hclosed := allocGo_closed (pipelineGraph inp) hWF
      (List.insertionSort (rootLE (startsOf (allNodes inp.space)))
        (pipelineRoots inp)) initState 0 hrootsL
      (by
        intro m2 hm2 hsome2
        simp [initState] at hsome2)
    have hb : Relation.ReflTransGen (ChildStep (pipelineGraph inp)) r m := hreach
    have key : ∀ b, Relation.ReflTransGen (ChildStep (pipelineGraph inp)) r b →
        b < (pipelineGraph inp).n ∧
        ((allocGo (pipelineGraph inp)
          (List.insertionSort (rootLE (startsOf (allNodes inp.space)))
            (pipelineRoots inp)) initState 0).1.groupOf b).isSome := by
      intro b hb2
      induction hb2 with
      | refl =>
        exact ⟨hroots r hr, allocGo_roots_isSome (pipelineGraph inp) _ initState 0 r
          ((hmemL r).mpr hr) (hroots r hr)⟩
      | tail hab hstep ih =>
        rcases ih with ⟨h1, h2⟩
        exact ⟨hWF _ h1 _ hstep, hclosed _ h1 h2 _ hstep⟩
    exact (key m hb).2

instance (g : Graph) : Decidable g.WF :=
  decidable_of_iff (∀ m ∈ List.range g.n, ∀ c ∈ g.children m, c < g.n)
    (by
      constructor
      · intro h m hm c hc
        exact h m (List.mem_range.mpr hm) c hc
      · intro h m hm c hc
        exact h m (List.mem_range.mp hm) c hc)

theorem C5_group_coverage_witness :
    ((pipelineGraph ⟨[[⟨0, 100, 1, [], none, none⟩, ⟨10, 20, 2, [], none, none⟩]],
        [], [1], 9⟩).WF ∧
     (∀ r ∈ pipelineRoots ⟨[[⟨0, 100, 1, [], none, none⟩, ⟨10, 20, 2, [], none, none⟩]],
        [], [1], 9⟩,
       r < (pipelineGraph ⟨[[⟨0, 100, 1, [], none, none⟩, ⟨10, 20, 2, [], none, none⟩]],
        [], [1], 9⟩).n)) ∧
    (∀ m, m < (pipelineGraph ⟨[[⟨0, 100, 1, [], none, none⟩, ⟨10, 20, 2, [], none, none⟩]],
        [], [1], 9⟩).n →
      (((pipeline ⟨[[⟨0, 100, 1, [], none, none⟩, ⟨10, 20, 2, [], none, none⟩]],
          [], [1], 9⟩).1.groupOf m).isSome ↔
        ∃ r ∈ pipelineRoots ⟨[[⟨0, 100, 1, [], none, none⟩, ⟨10, 20, 2, [], none, none⟩]],
          [], [1], 9⟩,
          Reach (pipelineGraph ⟨[[⟨0, 100, 1, [], none, none⟩,
            ⟨10, 20, 2, [], none, none⟩]], [], [1], 9⟩) r m)) :=
  ⟨⟨by decide, by decide⟩,
    C5_group_coverage ⟨[[⟨0, 100, 1, [], none, none⟩, ⟨10, 20, 2, [], none, none⟩]],
      [], [1], 9⟩ (by decide) (by decide)⟩


/-! Registry characterisation for the context connector. -/

/-- Producer bucket of key `k` in the registry. -/
def prodListOf : List ((Int × Nat) × (List Nat × List Nat)) → (Int × Nat) → List Nat
  | [], _ => []
  | (k2, pc) :: rest, k => if k = k2 then pc.1 else prodListOf rest k

/-- Consumer bucket of key `k` in the registry. -/
def consListOf : List ((Int × Nat) × (List Nat × List Nat)) → (Int × Nat) → List Nat
  | [], _ => []
  | (k2, pc) :: rest, k => if k = k2 then pc.2 else consListOf rest k

theorem prodListOf_regAddProducer_same (k : Int × Nat) (i : Nat) :
    ∀ m, prodListOf (regAddProducer m k i) k = prodListOf m k ++ [i] := by
  intro m
  induction m with
  | nil => simp [regAddProducer, prodListOf]
  | cons e rest ih =>
    obtain ⟨k3, pc⟩ := e
    rw [regAddProducer]
    by_cases hk : k = k3
    · rw [if_pos hk, prodListOf, if_pos hk, prodListOf, if_pos hk]
    · rw [if_neg hk, prodListOf, if_neg hk, prodListOf, if_neg hk]
      exact ih

theorem prodListOf_regAddProducer_ne (k k2 : Int × Nat) (i : Nat) (hne : k2 ≠ k) :
    ∀ m, prodListOf (regAddProducer m k i) k2 = prodListOf m k2 := by
  intro m
  induction m with
  | nil => simp [regAddProducer, prodListOf, hne]
  | cons e rest ih =>
    obtain ⟨k3, pc⟩ := e
    rw [regAddProducer]
    by_cases hk : k = k3
    · have hk2 : k2 ≠ k3 := fun h => hne (h.trans hk.symm)
      rw [if_pos hk, prodListOf, if_neg hk2, prodListOf, if_neg hk2]
    · by_cases hk3 : k2 = k3
      · rw [if_neg hk, prodListOf, if_pos hk3, prodListOf, if_pos hk3]
      · rw [if_neg hk, prodListOf, if_neg hk3, prodListOf, if_neg hk3]
        exact ih

theorem prodListOf_regAddConsumer (k k2 : Int × Nat) (i : Nat) :
    ∀ m, prodListOf (regAddConsumer m k i) k2 = prodListOf m k2 := by
  intro m
  induction m with
  | nil =>
    by_cases h : k2 = k <;> simp [regAddConsumer, prodListOf, h]
  | cons e rest ih =>
    obtain ⟨k3, pc⟩ := e
    rw [regAddConsumer]
    by_cases hk : k = k3
    · by_cases hk3 : k2 = k3 <;>
        rw [if_pos hk, prodListOf, prodListOf] <;>
        simp [hk3]
    · by_cases hk3 : k2 = k3
      · rw [if_neg hk, prodListOf, if_pos hk3, prodListOf, if_pos hk3]
      · rw [if_neg hk, prodListOf, if_neg hk3, prodListOf, if_neg hk3]
        exact ih

theorem consListOf_regAddConsumer_same (k : Int × Nat) (i : Nat) :
    ∀ m, consListOf (regAddConsumer m k i) k = consListOf m k ++ [i] := by
  intro m
  induction m with
  | nil => simp [regAddConsumer, consListOf]
  | cons e rest ih =>
    obtain ⟨k3, pc⟩ := e
    rw [regAddConsumer]
    by_cases hk : k = k3
    · rw [if_pos hk, consListOf, if_pos hk, consListOf, if_pos hk]
    · rw [if_neg hk, consListOf, if_neg hk, consListOf, if_neg hk]
      exact ih

theorem consListOf_regAddConsumer_ne (k k2 : Int × Nat) (i : Nat) (hne : k2 ≠ k) :
    ∀ m, consListOf (regAddConsumer m k i) k2 = consListOf m k2 := by
  intro m
  induction m with
  | nil => simp [regAddConsumer, consListOf, hne]
  | cons e rest ih =>
    obtain ⟨k3, pc⟩ := e
    rw [regAddConsumer]
    by_cases hk : k = k3
    · have hk2 : k2 ≠ k3 := fun h => hne (h.trans hk.symm)
      rw [if_pos hk, consListOf, if_neg hk2, consListOf, if_neg hk2]
    · by_cases hk3 : k2 = k3
      · rw [if_neg hk, consListOf, if_pos hk3, consListOf, if_pos hk3]
      · rw [if_neg hk, consListOf, if_neg hk3, consListOf, if_neg hk3]
        exact ih

theorem consListOf_regAddProducer (k k2 : Int × Nat) (i : Nat) :
    ∀ m, consListOf (regAddProducer m k i) k2 = consListOf m k2 := by
  intro m
  induction m with
  | nil =>
    by_cases h : k2 = k <;> simp [regAddProducer, consListOf, h]
  | cons e rest ih =>
    obtain ⟨k3, pc⟩ := e
    rw [regAddProducer]
    by_cases hk : k = k3
    · by_cases hk3 : k2 = k3 <;>
        rw [if_pos hk, consListOf, consListOf] <;>
        simp [hk3]
    · by_cases hk3 : k2 = k3
      · rw [if_neg hk, consListOf, if_pos hk3, consListOf, if_pos hk3]
      · rw [if_neg hk, consListOf, if_neg hk3, consListOf, if_neg hk3]
        exact ih

theorem prodListOf_addProducerOpt (k : Int × Nat) (m : List ((Int × Nat) × (List Nat × List Nat)))
    (x : Nat × Node) :
    prodListOf (addProducerOpt m x) k =
      prodListOf m k ++ (if x.2.producerCtx = some k then [x.1] else []) := by
  cases hctx : x.2.producerCtx with
  | none => simp [addProducerOpt, hctx]
  | some kp =>
    by_cases hk : kp = k
    · subst hk
      simp only [addProducerOpt, hctx]
      rw [prodListOf_regAddProducer_same]
      simp
    · simp only [addProducerOpt, hctx]
      rw [prodListOf_regAddProducer_ne kp k x.1 (fun h => hk h.symm)]
      simp [Option.some.injEq, hk]

theorem consListOf_addConsumerOpt (k : Int × Nat) (m : List ((Int × Nat) × (List Nat × List Nat)))
    (x : Nat × Node) :
    consListOf (addConsumerOpt m x) k =
      consListOf m k ++ (if x.2.consumerCtx = some k then [x.1] else []) := by
  cases hctx : x.2.consumerCtx with
  | none => simp [addConsumerOpt, hctx]
  | some kp =>
    by_cases hk : kp = k
    · subst hk
      simp only [addConsumerOpt, hctx]
      rw [consListOf_regAddConsumer_same]
      simp
    · simp only [addConsumerOpt, hctx]
      rw [consListOf_regAddConsumer_ne kp k x.1 (fun h => hk h.symm)]
      simp [Option.some.injEq, hk]

theorem prodListOf_addConsumerOpt (k : Int × Nat) (m : List ((Int × Nat) × (List Nat × List Nat)))
    (x : Nat × Node) :
    prodListOf (addConsumerOpt m x) k = prodListOf m k := by
  rw [addConsumerOpt]
  cases hctx : x.2.consumerCtx with
  | none => rfl
  | some kp => exact prodListOf_regAddConsumer kp k x.1 m

theorem consListOf_addProducerOpt (k : Int × Nat) (m : List ((Int × Nat) × (List Nat × List Nat)))
    (x : Nat × Node) :
    consListOf (addProducerOpt m x) k = consListOf m k := by
  rw [addProducerOpt]
  cases hctx : x.2.producerCtx with
  | none => rfl
  | some kp => exact consListOf_regAddProducer kp k x.1 m


/-- After the registry scan, the producer bucket of key `k` holds exactly
the ids of the nodes exposing producer context `k`, and likewise for
consumers. -/
theorem buildContextGroups_char (k : Int × Nat) :
    ∀ (nodes : List (Nat × Node)) (m0 : List ((Int × Nat) × (List Nat × List Nat))),
    prodListOf (nodes.foldl (fun m x => addConsumerOpt (addProducerOpt m x) x) m0) k =
      prodListOf m0 k ++
        ((nodes.filter (fun x => decide (x.2.producerCtx = some k))).map Prod.fst) ∧
    consListOf (nodes.foldl (fun m x => addConsumerOpt (addProducerOpt m x) x) m0) k =
      consListOf m0 k ++
        ((nodes.filter (fun x => decide (x.2.consumerCtx = some k))).map Prod.fst) := by
  intro nodes
  induction nodes with
  | nil =>
    intro m0
    simp
  | cons x rest ih =>
    intro m0
    rw [List.foldl_cons]
    rcases ih (addConsumerOpt (addProducerOpt m0 x) x) with ⟨ihp, ihc⟩
    constructor
    · rw [ihp, prodListOf_addConsumerOpt, prodListOf_addProducerOpt]
      by_cases hp : x.2.producerCtx = some k
      · simp [List.filter_cons, hp]
      · simp [List.filter_cons, hp]
    · rw [ihc, consListOf_addConsumerOpt, consListOf_addProducerOpt]
      by_cases hc : x.2.consumerCtx = some k
      · simp [List.filter_cons, hc]
      · simp [List.filter_cons, hc]

/-- A key with a member in either bucket has an actual registry entry
carrying both buckets. -/
theorem reg_entry_of_mem (k : Int × Nat) :
    ∀ (reg : List ((Int × Nat) × (List Nat × List Nat))) (p c : Nat),
    p ∈ prodListOf reg k → c ∈ consListOf reg k →
    ∃ pc, (k, pc) ∈ reg ∧ p ∈ pc.1 ∧ c ∈ pc.2 := by
  intro reg
  induction reg with
  | nil =>
    intro p c hp
    cases hp
  | cons e rest ih =>
    obtain ⟨k2, pc2⟩ := e
    intro p c hp hc
    by_cases hk : k = k2
    · rw [prodListOf, if_pos hk] at hp
      rw [consListOf, if_pos hk] at hc
      subst hk
      exact ⟨pc2, List.mem_cons_self _ _, hp, hc⟩
    · rw [prodListOf, if_neg hk] at hp
      rw [consListOf, if_neg hk] at hc
      rcases ih p c hp hc with ⟨pc, hmem, h1, h2⟩
      exact ⟨pc, List.mem_cons_of_mem _ hmem, h1, h2⟩

/-- Edges survive an `AddChild` call, and the new edge is present. -/
theorem addChild_child_mono (g : NodeGraph) (a b p c : Nat)
    (h : c ∈ g.childrenOf p) : c ∈ (addChild g a b).childrenOf p := by
  simp only [addChild]
  by_cases hp : p = a
  · rw [if_pos hp]
    exact List.mem_append_left _ h
  · rw [if_neg hp]
    exact h

theorem addChild_parent_mono (g : NodeGraph) (a b p c : Nat)
    (h : p ∈ g.parentsOf c) : p ∈ (addChild g a b).parentsOf c := by
  simp only [addChild]
  by_cases hc : c = b
  · rw [if_pos hc]
    exact List.mem_append_left _ h
  · rw [if_neg hc]
    exact h

theorem addChild_child_self (g : NodeGraph) (p c : Nat) :
    c ∈ (addChild g p c).childrenOf p ∧ p ∈ (addChild g p c).parentsOf c := by
  constructor
  · simp [addChild]
  · simp [addChild]

/-- The inner consumer fold keeps existing edges and links `p` to every
consumer. -/
theorem consFold_edges (p : Nat) (cs : List Nat) :
    ∀ (h : NodeGraph),
    (∀ p2 c2, c2 ∈ h.childrenOf p2 →
      c2 ∈ (cs.foldl (fun h3 c => addChild h3 p c) h).childrenOf p2) ∧
    (∀ p2 c2, p2 ∈ h.parentsOf c2 →
      p2 ∈ (cs.foldl (fun h3 c => addChild h3 p c) h).parentsOf c2) ∧
    (∀ c ∈ cs, c ∈ (cs.foldl (fun h3 c => addChild h3 p c) h).childrenOf p ∧
      p ∈ (cs.foldl (fun h3 c => addChild h3 p c) h).parentsOf c) := by
  induction cs with
  | nil =>
    intro h
    refine ⟨fun _ _ h2 => h2, fun _ _ h2 => h2, ?_⟩
    intro c hc
    cases hc
  | cons c0 cs ih =>
    intro h
    rw [List.foldl_cons]
    rcases ih (addChild h p c0) with ⟨ih1, ih2, ih3⟩
    refine ⟨?_, ?_, ?_⟩
    · intro p2 c2 h2
      exact ih1 p2 c2 (addChild_child_mono h p c0 p2 c2 h2)
    · intro p2 c2 h2
      exact ih2 p2 c2 (addChild_parent_mono h p c0 p2 c2 h2)
    · intro c hc
      rcases List.mem_cons.mp hc with h2 | h2
      · subst h2
        exact ⟨ih1 p c (addChild_child_self h p c).1,
          ih2 p c (addChild_child_self h p c).2⟩
      · exact ih3 c h2

/-- `linkAll` keeps existing edges and adds the full cross product. -/
theorem linkAll_edges (ps cs : List Nat) :
    ∀ (h : NodeGraph),
    (∀ p2 c2, c2 ∈ h.childrenOf p2 → c2 ∈ (linkAll h ps cs).childrenOf p2) ∧
    (∀ p2 c2, p2 ∈ h.parentsOf c2 → p2 ∈ (linkAll h ps cs).parentsOf c2) ∧
    (∀ p ∈ ps, ∀ c ∈ cs,
      c ∈ (linkAll h ps cs).childrenOf p ∧ p ∈ (linkAll h ps cs).parentsOf c) := by
  induction ps with
  | nil =>
    intro h
    refine ⟨fun _ _ h2 => h2, fun _ _ h2 => h2, ?_⟩
    intro p hp
    cases hp
  | cons p0 ps ih =>
    intro h
    rw [linkAll, List.foldl_cons]
    have hlink : ∀ h2, linkAll h2 ps cs = ps.foldl
        (fun h3 p => cs.foldl (fun h4 c => addChild h4 p c) h3) h2 := fun _ => rfl
    rcases consFold_edges p0 cs h with ⟨c1, c2, c3⟩
    rcases ih (cs.foldl (fun h3 c => addChild h3 p0 c) h) with ⟨i1, i2, i3⟩
    rw [hlink] at i1 i2 i3
    refine ⟨?_, ?_, ?_⟩
    · intro p2 c2m hm
      exact i1 p2 c2m (c1 p2 c2m hm)
    · intro p2 c2m hm
      exact i2 p2 c2m (c2 p2 c2m hm)
    · intro p hp c hc
      rcases List.mem_cons.mp hp with h2 | h2
      · subst h2
        exact ⟨i1 p c (c3 c hc).1, i2 p c (c3 c hc).2⟩
      · exact i3 p h2 c hc

/-- The registry fold of the context connector keeps existing edges and
links every producer/consumer pair of every entry. -/
theorem ctxFold_edges (reg : List ((Int × Nat) × (List Nat × List Nat))) :
    ∀ (g : NodeGraph),
    (∀ p2 c2, c2 ∈ g.childrenOf p2 →
      c2 ∈ (reg.foldl
        (fun h e => if e.2.1 ≠ [] ∧ e.2.2 ≠ [] then linkAll h e.2.1 e.2.2 else h)
        g).childrenOf p2) ∧
    (∀ p2 c2, p2 ∈ g.parentsOf c2 →
      p2 ∈ (reg.foldl
        (fun h e => if e.2.1 ≠ [] ∧ e.2.2 ≠ [] then linkAll h e.2.1 e.2.2 else h)
        g).parentsOf c2) ∧
    (∀ k pc, (k, pc) ∈ reg → ∀ p ∈ pc.1, ∀ c ∈ pc.2,
      c ∈ (reg.foldl
        (fun h e => if e.2.1 ≠ [] ∧ e.2.2 ≠ [] then linkAll h e.2.1 e.2.2 else h)
        g).childrenOf p ∧
      p ∈ (reg.foldl
        (fun h e => if e.2.1 ≠ [] ∧ e.2.2 ≠ [] then linkAll h e.2.1 e.2.2 else h)
        g).parentsOf c) := by
  induction reg with
  | nil =>
    intro g
    refine ⟨fun _ _ h2 => h2, fun _ _ h2 => h2, ?_⟩
    intro k pc hmem
    cases hmem
  | cons e rest ih =>
    intro g
    rw [List.foldl_cons]
    rcases ih (if e.2.1 ≠ [] ∧ e.2.2 ≠ [] then linkAll g e.2.1 e.2.2 else g) with
      ⟨i1, i2, i3⟩
    have hstep1 : ∀ p2 c2, c2 ∈ g.childrenOf p2 →
        c2 ∈ (if e.2.1 ≠ [] ∧ e.2.2 ≠ [] then linkAll g e.2.1 e.2.2 else g).childrenOf
          p2 := by
      intro p2 c2 hm
      by_cases hcond : e.2.1 ≠ [] ∧ e.2.2 ≠ []
      · rw [if_pos hcond]
        exact (linkAll_edges e.2.1 e.2.2 g).1 p2 c2 hm
      · rw [if_neg hcond]
        exact hm
    have hstep2 : ∀ p2 c2, p2 ∈ g.parentsOf c2 →
        p2 ∈ (if e.2.1 ≠ [] ∧ e.2.2 ≠ [] then linkAll g e.2.1 e.2.2 else g).parentsOf
          c2 := by
      intro p2 c2 hm
      by_cases hcond : e.2.1 ≠ [] ∧ e.2.2 ≠ []
      · rw [if_pos hcond]
        exact (linkAll_edges e.2.1 e.2.2 g).2.1 p2 c2 hm
      · rw [if_neg hcond]
        exact hm
    refine ⟨?_, ?_, ?_⟩
    · intro p2 c2 hm
      exact i1 p2 c2 (hstep1 p2 c2 hm)
    · intro p2 c2 hm
      exact i2 p2 c2 (hstep2 p2 c2 hm)
    · intro k pc hmem p hp c hc
      rcases List.mem_cons.mp hmem with h2 | h2
      · subst h2
        have hcond : pc.1 ≠ [] ∧ pc.2 ≠ [] :=
          ⟨List.ne_nil_of_mem hp, List.ne_nil_of_mem hc⟩
        have hlinked := (linkAll_edges pc.1 pc.2 g).2.2 p hp c hc
        constructor
        · refine i1 p c ?_
          rw [if_pos hcond]
          exact hlinked.1
        · refine i2 p c ?_
          rw [if_pos hcond]
          exact hlinked.2
      · exact i3 k pc h2 p hp c hc


/-- C7: in the context-based connector, once all nodes are scanned into the
`(context kind, context id)` registry, every producer node of a key is
linked as a parent of every consumer node of the same key — the full cross
product (keys with only producers or only consumers add nothing). -/
theorem C7_context_cross_product (g : NodeGraph) (nodes : List (Nat × Node))
    (k : Int × Nat) (p c : Nat) (np nc : Node)
    (hp : (p, np) ∈ nodes) (hc : (c, nc) ∈ nodes)
    (hkp : np.producerCtx = some k) (hkc : nc.consumerCtx = some k) :
    c ∈ (connectContextGroups g nodes).childrenOf p ∧
    p ∈ (connectContextGroups g nodes).parentsOf c := by
  have hchar := buildContextGroups_char k nodes []
  have hpmem : p ∈ prodListOf (buildContextGroups nodes) k := by
    unfold buildContextGroups
    rw [hchar.1]
    simp only [prodListOf, List.nil_append]
    exact List.mem_map.mpr ⟨(p, np), List.mem_filter.mpr ⟨hp, by simp [hkp]⟩, rfl⟩
  have hcmem : c ∈ consListOf (buildContextGroups nodes) k := by
    unfold buildContextGroups
    rw [hchar.2]
    simp only [consListOf, List.nil_append]
    exact List.mem_map.mpr ⟨(c, nc), List.mem_filter.mpr ⟨hc, by simp [hkc]⟩, rfl⟩
  rcases reg_entry_of_mem k (buildContextGroups nodes) p c hpmem hcmem with
    ⟨pc2, hentry, hp2, hc2⟩
  exact (ctxFold_edges (buildContextGroups nodes) g).2.2 k pc2 hentry p hp2 c hc2

theorem C7_context_cross_product_witness :
    (((0 : Nat), (⟨0, 5, 1, [], some (3, 7), none⟩ : Node)) ∈
        [((0 : Nat), (⟨0, 5, 1, [], some (3, 7), none⟩ : Node)),
         ((1 : Nat), (⟨9, 5, 2, [], none, some (3, 7)⟩ : Node))] ∧
     ((1 : Nat), (⟨9, 5, 2, [], none, some (3, 7)⟩ : Node)) ∈
        [((0 : Nat), (⟨0, 5, 1, [], some (3, 7), none⟩ : Node)),
         ((1 : Nat), (⟨9, 5, 2, [], none, some (3, 7)⟩ : Node))] ∧
     (⟨0, 5, 1, [], some (3, 7), none⟩ : Node).producerCtx = some (3, 7) ∧
     (⟨9, 5, 2, [], none, some (3, 7)⟩ : Node).consumerCtx = some (3, 7)) ∧
    (1 ∈ (connectContextGroups NodeGraph.empty
        [((0 : Nat), (⟨0, 5, 1, [], some (3, 7), none⟩ : Node)),
         ((1 : Nat), (⟨9, 5, 2, [], none, some (3, 7)⟩ : Node))]).childrenOf 0 ∧
     0 ∈ (connectContextGroups NodeGraph.empty
        [((0 : Nat), (⟨0, 5, 1, [], some (3, 7), none⟩ : Node)),
         ((1 : Nat), (⟨9, 5, 2, [], none, some (3, 7)⟩ : Node))]).parentsOf 1) :=
  ⟨⟨by decide, by decide, by decide, by decide⟩,
    C7_context_cross_product NodeGraph.empty
      [((0 : Nat), (⟨0, 5, 1, [], some (3, 7), none⟩ : Node)),
       ((1 : Nat), (⟨9, 5, 2, [], none, some (3, 7)⟩ : Node))]
      (3, 7) 0 1 ⟨0, 5, 1, [], some (3, 7), none⟩ ⟨9, 5, 2, [], none, some (3, 7)⟩
      (by decide) (by decide) (by decide) (by decide)⟩


theorem lookupL_mapAppend (k k2 : List Int) (i : Nat) :
    ∀ m, lookupL k2 (mapAppend m k i) =
      if k2 = k then lookupL k2 m ++ [i] else lookupL k2 m := by
  intro m
  induction m with
  | nil =>
    by_cases h : k2 = k <;> simp [mapAppend, lookupL, h]
  | cons e rest ih =>
    obtain ⟨k3, l⟩ := e
    rw [mapAppend]
    by_cases hk : k = k3
    · by_cases h2 : k2 = k3
      · have h3 : k2 = k := h2.trans hk.symm
        rw [if_pos hk, lookupL, if_pos h2, if_pos h3, lookupL, if_pos h2]
      · have h3 : k2 ≠ k := fun h => h2 (h.trans hk)
        rw [if_pos hk, lookupL, if_neg h2, if_neg h3, lookupL, if_neg h2]
    · by_cases h2 : k2 = k3
      · have h3 : k2 ≠ k := fun h => hk (h ▸ h2 : k = k3)
        rw [if_neg hk, lookupL, if_pos h2, if_neg h3, lookupL, if_pos h2]
      · rw [if_neg hk, lookupL, if_neg h2, ih, lookupL, if_neg h2]

/-- After the parent-map build, the bucket of stat tuple `v` holds exactly
the ids of the parent-event-type nodes whose parent stat tuple is `v`;
nodes lacking a required parent stat appear in no bucket. -/
theorem ruleParentMap_char (ru : InterThreadConnectInfo) (v : List Int) :
    ∀ (nodes : List (Nat × Node)) (m0 : List (List Int × List Nat)),
    lookupL v (nodes.foldl
      (fun m x =>
        if x.2.etype = ru.parent_event_type then
          match statTuple x.2 ru.parent_stat_types with
          | some w => mapAppend m w x.1
          | none => m
        else m) m0) =
    lookupL v m0 ++
      ((nodes.filter (fun x => decide (x.2.etype = ru.parent_event_type ∧
        statTuple x.2 ru.parent_stat_types = some v))).map Prod.fst) := by
  intro nodes
  induction nodes with
  | nil =>
    intro m0
    simp
  | cons x rest ih =>
    intro m0
    rw [List.foldl_cons]
    by_cases he : x.2.etype = ru.parent_event_type
    · cases hst : statTuple x.2 ru.parent_stat_types with
      | none =>
        rw [if_pos he, List.filter_cons_of_neg (by simp [he, hst])]
        simp only [hst]
        exact ih m0
      | some w =>
        rw [if_pos he]
        simp only [hst]
        by_cases hv : w = v
        · subst hv
          rw [List.filter_cons_of_pos (by simp [he, hst]),
            ih (mapAppend m0 w x.1), lookupL_mapAppend w w x.1 m0, if_pos rfl]
          simp
        · rw [List.filter_cons_of_neg (by simp [he, hst, hv]),
            ih (mapAppend m0 w x.1), lookupL_mapAppend w v x.1 m0,
            if_neg (fun h => hv h.symm)]
    · rw [if_neg he, List.filter_cons_of_neg (by simp [he])]
      exact ih m0

theorem addChild_child_iff (g : NodeGraph) (a b p c : Nat) :
    c ∈ (addChild g a b).childrenOf p ↔
      c ∈ g.childrenOf p ∨ (p = a ∧ c = b) := by
  simp only [addChild]
  by_cases hp : p = a
  · rw [if_pos hp]
    simp [hp]
  · rw [if_neg hp]
    simp [hp]

theorem attachFold_child_iff (i : Nat) (ps : List Nat) :
    ∀ (h : NodeGraph) (p c : Nat),
    c ∈ (ps.foldl (fun h2 p2 => addChild h2 p2 i) h).childrenOf p ↔
      c ∈ h.childrenOf p ∨ (c = i ∧ p ∈ ps) := by
  induction ps with
  | nil =>
    intro h p c
    simp
  | cons p0 ps ih =>
    intro h p c
    rw [List.foldl_cons, ih (addChild h p0 i) p c, addChild_child_iff]
    constructor
    · rintro ((h2 | ⟨h2, h3⟩) | ⟨h2, h3⟩)
      · exact Or.inl h2
      · refine Or.inr ⟨h3, ?_⟩
        rw [h2]
        exact List.mem_cons_self _ _
      · exact Or.inr ⟨h2, List.mem_cons_of_mem _ h3⟩
    · rintro (h2 | ⟨h2, h3⟩)
      · exact Or.inl (Or.inl h2)
      · rcases List.mem_cons.mp h3 with h4 | h4
        · exact Or.inl (Or.inr ⟨h4, h2⟩)
        · exact Or.inr ⟨h2, h4⟩

theorem applyRuleAux_child_iff (ru : InterThreadConnectInfo)
    (pm : List (List Int × List Nat)) :
    ∀ (lst : List (Nat × Node)) (g : NodeGraph) (p c : Nat),
    c ∈ (lst.foldl
      (fun h x =>
        if x.2.etype = ru.child_event_type then
          match statTuple x.2 ru.child_stat_types with
          | some v => (lookupL v pm).foldl (fun h2 p2 => addChild h2 p2 x.1) h
          | none => h
        else h) g).childrenOf p ↔
    c ∈ g.childrenOf p ∨
      ∃ ncd, (c, ncd) ∈ lst ∧ ncd.etype = ru.child_event_type ∧
        ∃ v, statTuple ncd ru.child_stat_types = some v ∧ p ∈ lookupL v pm := by
  intro lst
  induction lst with
  | nil =>
    intro g p c
    simp
  | cons x rest ih =>
    intro g p c
    rw [List.foldl_cons, ih]
    constructor
    · rintro (h2 | ⟨ncd, hmem, hty, v, hst, hp⟩)
      · by_cases he : x.2.etype = ru.child_event_type
        · rw [if_pos he] at h2
          cases hst : statTuple x.2 ru.child_stat_types with
          | none =>
            rw [hst] at h2
            exact Or.inl h2
          | some v =>
            rw [hst] at h2
            rcases (attachFold_child_iff x.1 (lookupL v pm) g p c).mp h2 with
              h3 | ⟨h3, h4⟩
            · exact Or.inl h3
            · refine Or.inr ⟨x.2, ?_, he, v, hst, h4⟩
              rw [h3]
              exact List.mem_cons_self _ _
        · rw [if_neg he] at h2
          exact Or.inl h2
      · exact Or.inr ⟨ncd, List.mem_cons_of_mem _ hmem, hty, v, hst, hp⟩
    · rintro (h2 | ⟨ncd, hmem, hty, v, hst, hp⟩)
      · refine Or.inl ?_
        by_cases he : x.2.etype = ru.child_event_type
        · rw [if_pos he]
          cases hst : statTuple x.2 ru.child_stat_types with
          | none => exact h2
          | some v =>
            exact (attachFold_child_iff x.1 (lookupL v pm) g p c).mpr (Or.inl h2)
        · rw [if_neg he]
          exact h2
      · rcases List.mem_cons.mp hmem with h3 | h3
        · have hx1 : x.1 = c := by
            rw [← h3]
          have hx2 : x.2 = ncd := by
            rw [← h3]
          refine Or.inl ?_
          rw [if_pos (hx2 ▸ hty)]
          rw [show statTuple x.2 ru.child_stat_types = some v from hx2 ▸ hst]
          exact (attachFold_child_iff x.1 (lookupL v pm) g p c).mpr
            (Or.inr ⟨hx1.symm, hp⟩)
        · exact Or.inr ⟨ncd, h3, hty, v, hst, hp⟩

theorem applyRule_child_iff (g : NodeGraph) (nodes : List (Nat × Node))
    (ru : InterThreadConnectInfo) (p c : Nat) :
    c ∈ (applyRule g nodes ru).childrenOf p ↔
      c ∈ g.childrenOf p ∨
      ∃ ncd, (c, ncd) ∈ nodes ∧ ncd.etype = ru.child_event_type ∧
        ∃ v, statTuple ncd ru.child_stat_types = some v ∧
          p ∈ lookupL v (ruleParentMap nodes ru) := by
  unfold applyRule
  exact applyRuleAux_child_iff ru (ruleParentMap nodes ru) nodes g p c

theorem nodup_fst_eq (l : List (Nat × Node)) (h : (l.map Prod.fst).Nodup)
    (i : Nat) (a b : Node) (ha : (i, a) ∈ l) (hb : (i, b) ∈ l) : a = b := by
  induction l with
  | nil => cases ha
  | cons x rest ih =>
    rw [List.map_cons, List.nodup_cons] at h
    rcases List.mem_cons.mp ha with h1 | h1
    · rcases List.mem_cons.mp hb with h2 | h2
      · rw [← h1] at h2
        exact (Prod.mk.injEq _ _ _ _ ▸ h2).2.symm
      · exfalso
        refine h.1 ?_
        rw [← h1]
        exact List.mem_map.mpr ⟨(i, b), h2, rfl⟩
    · rcases List.mem_cons.mp hb with h2 | h2
      · exfalso
        refine h.1 ?_
        rw [← h2]
        exact List.mem_map.mpr ⟨(i, a), h1, rfl⟩
      · exact ih h.2 h1 h2


/-- C8: in the rule-based cross-timeline connector, a node lacking any stat
required by a rule is silently excluded from that rule's matching — its
edges are exactly the pre-existing ones, with no error state in the model —
while every parent/child pair carrying all required stats with equal value
tuples is still connected. -/
theorem C8_missing_stats_excluded (g : NodeGraph) (nodes : List (Nat × Node))
    (ru : InterThreadConnectInfo) (hids : (nodes.map Prod.fst).Nodup) :
    (∀ i nd, (i, nd) ∈ nodes → statTuple nd ru.child_stat_types = none →
      ∀ p, (i ∈ (applyRule g nodes ru).childrenOf p ↔ i ∈ g.childrenOf p)) ∧
    (∀ i nd, (i, nd) ∈ nodes → statTuple nd ru.parent_stat_types = none →
      ∀ c, (c ∈ (applyRule g nodes ru).childrenOf i ↔ c ∈ g.childrenOf i)) ∧
    (∀ p np c ncd v, (p, np) ∈ nodes → (c, ncd) ∈ nodes →
      np.etype = ru.parent_event_type → ncd.etype = ru.child_event_type →
      statTuple np ru.parent_stat_types = some v →
      statTuple ncd ru.child_stat_types = some v →
      c ∈ (applyRule g nodes ru).childrenOf p) := by
  have hmap : ∀ v, lookupL v (ruleParentMap nodes ru) =
      ((nodes.filter (fun x => decide (x.2.etype = ru.parent_event_type ∧
        statTuple x.2 ru.parent_stat_types = some v))).map Prod.fst) := by
    intro v
    unfold ruleParentMap
    rw [ruleParentMap_char ru v nodes []]
    simp [lookupL]
  refine ⟨?_, ?_, ?_⟩
  · intro i nd hmem hnone p
    rw [applyRule_child_iff g nodes ru p i]
    constructor
    · rintro (h | ⟨ncd, hmem2, hty, v, hst, hp⟩)
      · exact h
      · have heq : ncd = nd := nodup_fst_eq nodes hids i ncd nd hmem2 hmem
        rw [heq, hnone] at hst
        cases hst
    · exact Or.inl
  · intro i nd hmem hnone c
    rw [applyRule_child_iff g nodes ru i c]
    constructor
    · rintro (h | ⟨ncd, hmem2, hty, v, hst, hp⟩)
      · exact h
      · rw [hmap v] at hp
        rcases List.mem_map.mp hp with ⟨x, hx, hfst⟩
        have hxmem := List.mem_filter.mp hx
        have hdec := of_decide_eq_true hxmem.2
        have hx2 : (i, x.2) ∈ nodes := by
          rw [← hfst, Prod.mk.eta]
          exact hxmem.1
        have heq : x.2 = nd := nodup_fst_eq nodes hids i x.2 nd hx2 hmem
        rw [heq, hnone] at hdec
        cases hdec.2
    · exact Or.inl
  · intro p np c ncd v hp hc hpt hct hpst hcst
    rw [applyRule_child_iff g nodes ru p c]
    refine Or.inr ⟨ncd, hc, hct, v, hcst, ?_⟩
    rw [hmap v]
    exact List.mem_map.mpr ⟨(p, np), List.mem_filter.mpr ⟨hp, by simp [hpt, hpst]⟩,
      rfl⟩

theorem C8_missing_stats_excluded_witness :
    (([((0 : Nat), (⟨0, 5, 1, [(4, 7)], none, none⟩ : Node)),
       ((1 : Nat), (⟨1, 5, 2, [], none, none⟩ : Node)),
       ((2 : Nat), (⟨2, 5, 2, [(4, 7)], none, none⟩ : Node))].map Prod.fst).Nodup) ∧
    ((∀ i nd,
        (i, nd) ∈ [((0 : Nat), (⟨0, 5, 1, [(4, 7)], none, none⟩ : Node)),
          ((1 : Nat), (⟨1, 5, 2, [], none, none⟩ : Node)),
          ((2 : Nat), (⟨2, 5, 2, [(4, 7)], none, none⟩ : Node))] →
        statTuple nd (⟨1, 2, [4], [4]⟩ : InterThreadConnectInfo).child_stat_types =
          none →
        ∀ p, (i ∈ (applyRule NodeGraph.empty
            [((0 : Nat), (⟨0, 5, 1, [(4, 7)], none, none⟩ : Node)),
             ((1 : Nat), (⟨1, 5, 2, [], none, none⟩ : Node)),
             ((2 : Nat), (⟨2, 5, 2, [(4, 7)], none, none⟩ : Node))]
            ⟨1, 2, [4], [4]⟩).childrenOf p ↔
          i ∈ NodeGraph.empty.childrenOf p)) ∧
     (∀ i nd,
        (i, nd) ∈ [((0 : Nat), (⟨0, 5, 1, [(4, 7)], none, none⟩ : Node)),
          ((1 : Nat), (⟨1, 5, 2, [], none, none⟩ : Node)),
          ((2 : Nat), (⟨2, 5, 2, [(4, 7)], none, none⟩ : Node))] →
        statTuple nd (⟨1, 2, [4], [4]⟩ : InterThreadConnectInfo).parent_stat_types =
          none →
        ∀ c, (c ∈ (applyRule NodeGraph.empty
            [((0 : Nat), (⟨0, 5, 1, [(4, 7)], none, none⟩ : Node)),
             ((1 : Nat), (⟨1, 5, 2, [], none, none⟩ : Node)),
             ((2 : Nat), (⟨2, 5, 2, [(4, 7)], none, none⟩ : Node))]
            ⟨1, 2, [4], [4]⟩).childrenOf i ↔
          c ∈ NodeGraph.empty.childrenOf i)) ∧
     (∀ p np c ncd v,
        (p, np) ∈ [((0 : Nat), (⟨0, 5, 1, [(4, 7)], none, none⟩ : Node)),
          ((1 : Nat), (⟨1, 5, 2, [], none, none⟩ : Node)),
          ((2 : Nat), (⟨2, 5, 2, [(4, 7)], none, none⟩ : Node))] →
        (c, ncd) ∈ [((0 : Nat), (⟨0, 5, 1, [(4, 7)], none, none⟩ : Node)),
          ((1 : Nat), (⟨1, 5, 2, [], none, none⟩ : Node)),
          ((2 : Nat), (⟨2, 5, 2, [(4, 7)], none, none⟩ : Node))] →
        np.etype = (⟨1, 2, [4], [4]⟩ : InterThreadConnectInfo).parent_event_type →
        ncd.etype = (⟨1, 2, [4], [4]⟩ : InterThreadConnectInfo).child_event_type →
        statTuple np (⟨1, 2, [4], [4]⟩ : InterThreadConnectInfo).parent_stat_types =
          some v →
        statTuple ncd (⟨1, 2, [4], [4]⟩ : InterThreadConnectInfo).child_stat_types =
          some v →
        c ∈ (applyRule NodeGraph.empty
            [((0 : Nat), (⟨0, 5, 1, [(4, 7)], none, none⟩ : Node)),
             ((1 : Nat), (⟨1, 5, 2, [], none, none⟩ : Node)),
             ((2 : Nat), (⟨2, 5, 2, [(4, 7)], none, none⟩ : Node))]
            ⟨1, 2, [4], [4]⟩).childrenOf p)) :=
  ⟨by decide,
    C8_missing_stats_excluded NodeGraph.empty
      [((0 : Nat), (⟨0, 5, 1, [(4, 7)], none, none⟩ : Node)),
       ((1 : Nat), (⟨1, 5, 2, [], none, none⟩ : Node)),
       ((2 : Nat), (⟨2, 5, 2, [(4, 7)], none, none⟩ : Node))]
      ⟨1, 2, [4], [4]⟩ (by decide)⟩

